import Mathlib

set_option maxRecDepth 100000

/-! # Lemon OS physical page-frame allocator

A shallow embedding of `Kernel/src/arch/x86_64/physicalallocator.cpp` and the
properties of it that the specification states.

Conventions of the embedding.

* The global variables `physicalMemoryBitmap`, `usedPhysicalBlocks` and
  `maxPhysicalBlocks` become the fields of `AllocatorState`, passed explicitly.
* `uint32_t` and `uint64_t` values are natural numbers; every place where the
  C++ arithmetic can truncate or wrap carries an explicit `% 2 ^ 32` or
  `% 2 ^ 64`.
* `PHYSALLOC_BLOCK_SIZE` comes from `physicalallocator.h`, which is not among
  the sources; it is the parameter `B` of every function that uses it.
  `PHYSALLOC_BITMAP_SIZE_DWORDS` (same header) is the length of the bitmap
  list, and the parameter `D` of the initialiser that fills the array.
* An access outside the bitmap array is undefined behaviour in C++; the
  functions that can perform one return `none` (or `AllocResult.undefined`).
-/

namespace Memory

/-! ## Data model -/

/-- The allocator globals: the bitmap words (`uint32_t[PHYSALLOC_BITMAP_SIZE_DWORDS]`)
and the two `uint64_t` counters. -/
structure AllocatorState where
  physicalMemoryBitmap : List Nat
  usedPhysicalBlocks : Nat
  maxPhysicalBlocks : Nat
deriving DecidableEq

/-- Machine-type invariant of a state: every bitmap word is a `uint32_t`, both
counters are `uint64_t`, and every block index of the array fits a `uint32_t`,
the index type of the scanning and region loops (an assumption on
`PHYSALLOC_BITMAP_SIZE_DWORDS`, whose value is not among the sources). -/
def AllocatorState.WellTyped (s : AllocatorState) : Prop :=
  (∀ w ∈ s.physicalMemoryBitmap, w < 2 ^ 32) ∧
  s.usedPhysicalBlocks < 2 ^ 64 ∧
  s.maxPhysicalBlocks < 2 ^ 64 ∧
  s.physicalMemoryBitmap.length * 32 < 2 ^ 32

instance (s : AllocatorState) : Decidable s.WellTyped :=
  inferInstanceAs (Decidable ((∀ w ∈ s.physicalMemoryBitmap, w < 2 ^ 32) ∧
    s.usedPhysicalBlocks < 2 ^ 64 ∧
    s.maxPhysicalBlocks < 2 ^ 64 ∧
    s.physicalMemoryBitmap.length * 32 < 2 ^ 32))

/-- Number of blocks the bitmap array can describe. -/
def AllocatorState.capacity (s : AllocatorState) : Nat :=
  s.physicalMemoryBitmap.length * 32

/-- The block size macro is a positive `int` constant. -/
def ValidBlockSize (B : Nat) : Prop := 0 < B ∧ B < 2 ^ 31

instance (B : Nat) : Decidable (ValidBlockSize B) :=
  inferInstanceAs (Decidable (0 < B ∧ B < 2 ^ 31))

/-- Modelled from the spec: the declaration of `multiboot_memory_map_t` is not
among the sources. A region descriptor carries its own record length `size`,
a `u64` base address, a `u64` byte count and a `u32` type (1 = usable RAM,
0 = terminator, other = reserved). -/
structure multiboot_memory_map_t where
  size : Nat
  base : Nat
  length : Nat
  type : Nat
deriving DecidableEq

/-- Modelled from the spec: the declaration of `memory_info_t` is not among the
sources. `memory_low` and `memory_high` are KiB counts, taken as 64-bit;
`mem_map` is the finite sequence of records that the variable-stride walk from
`mem_map` to `mem_map + memory_map_len` visits, in order. -/
structure memory_info_t where
  memory_high : Nat
  memory_low : Nat
  mem_map : List multiboot_memory_map_t
deriving DecidableEq

/-- Outcome of `AllocatePhysicalMemoryBlock`: it returns an address, or it
reaches `KernelPanic` followed by `for(;;);` and never returns, or it performs
an access outside the bitmap array. -/
inductive AllocResult where
  | returned (addr : Nat) (s : AllocatorState)
  | outOfMemory (s : AllocatorState)
  | undefined
deriving DecidableEq

/-! ## Bit primitives -/

/-- `physicalMemoryBitmap[bit >> 5] |= (1 << (bit % 32))`. -/
def bit_set (s : AllocatorState) (bit : Nat) : Option AllocatorState :=
  match s.physicalMemoryBitmap[bit >>> 5]? with
  | none => none
  | some w =>
    some { s with physicalMemoryBitmap :=
      s.physicalMemoryBitmap.set (bit >>> 5) ((w ||| (1 <<< (bit % 32))) % 2 ^ 32) }

/-- `physicalMemoryBitmap[bit >> 5] &= ~ (1 << (bit % 32))`; the complement is
taken on 32 bits. -/
def bit_clear (s : AllocatorState) (bit : Nat) : Option AllocatorState :=
  match s.physicalMemoryBitmap[bit >>> 5]? with
  | none => none
  | some w =>
    some { s with physicalMemoryBitmap :=
      s.physicalMemoryBitmap.set (bit >>> 5) (w &&& (0xFFFFFFFF ^^^ (1 <<< (bit % 32)))) }

/-- `return physicalMemoryBitmap[bit >> 5] & (1 << (bit % 32))`, as a `bool`. -/
def bit_test (s : AllocatorState) (bit : Nat) : Option Bool :=
  match s.physicalMemoryBitmap[bit >>> 5]? with
  | none => none
  | some w => some ((w &&& (1 <<< (bit % 32))) != 0)

/-! ## Scanning for a free block -/

/-- The inner loop of `GetFirstFreeMemoryBlock` on word `w` of index `i`:
`for (j = ...; j < 32; j++) if (!(w & (1 << j)) && (i || j)) return i * 32 + j;`.
The first argument is the number of iterations left, the second is `j`. The
returned index is computed in `uint32_t`. `none` means the loop ran to its end
without returning. -/
def scanWord (w i : Nat) : Nat → Nat → Option Nat
  | 0, _ => none
  | k + 1, j =>
    if (w &&& (1 <<< j)) == 0 && (i != 0 || j != 0) then
      some ((i * 32 + j) % 2 ^ 32)
    else
      scanWord w i k (j + 1)

/-- The outer loop of `GetFirstFreeMemoryBlock`, from word index `i` with `n`
iterations left before `i` reaches `maxPhysicalBlocks / 32`. Reading a word
outside the array is undefined (`none`). The counter `i` is a `uint32_t`: if
it had to pass `2 ^ 32 - 1` it would wrap to 0 and the loop would never end,
which is `none` as well. -/
def scanFrom (bitmap : List Nat) : Nat → Nat → Option Nat
  | 0, _ => some 0
  | n + 1, i =>
    if i < 2 ^ 32 then
      match bitmap[i]? with
      | none => none
      | some w =>
        if w != 0xffffffff then
          match scanWord w i 32 0 with
          | some r => some r
          | none => scanFrom bitmap n (i + 1)
        else
          scanFrom bitmap n (i + 1)
    else
      none

/-- Finds the first free block in physical memory; 0 when there is none
("The first block is always reserved"). It only reads the state. -/
def GetFirstFreeMemoryBlock (s : AllocatorState) : Option Nat :=
  scanFrom s.physicalMemoryBitmap (s.maxPhysicalBlocks / 32) 0

/-! ## Region primitives -/

/-- The loop of `MarkMemoryRegionUsed`:
`for (...; blocks > 0; blocks--, usedPhysicalBlocks++) bit_set(align++);`
with `blocks` and `align` of type `uint32_t`. -/
def markUsedLoop : Nat → Nat → AllocatorState → Option AllocatorState
  | 0, _, s => some s
  | blocks + 1, align, s =>
    match bit_set s align with
    | none => none
    | some s1 =>
      markUsedLoop blocks ((align + 1) % 2 ^ 32)
        { s1 with usedPhysicalBlocks := (s1.usedPhysicalBlocks + 1) % 2 ^ 64 }

/-- Marks a region in physical memory as being used:
`blocks = size / PHYSALLOC_BLOCK_SIZE`, `align = base / PHYSALLOC_BLOCK_SIZE`,
both truncated to `uint32_t`. -/
def MarkMemoryRegionUsed (B : Nat) (s : AllocatorState) (base size : Nat) :
    Option AllocatorState :=
  markUsedLoop ((size / B) % 2 ^ 32) ((base / B) % 2 ^ 32) s

/-- The loop of `MarkMemoryRegionFree`:
`for (...; blocks > 0; blocks--, usedPhysicalBlocks--) bit_clear(align++);`. -/
def markFreeLoop : Nat → Nat → AllocatorState → Option AllocatorState
  | 0, _, s => some s
  | blocks + 1, align, s =>
    match bit_clear s align with
    | none => none
    | some s1 =>
      markFreeLoop blocks ((align + 1) % 2 ^ 32)
        { s1 with usedPhysicalBlocks := (s1.usedPhysicalBlocks + (2 ^ 64 - 1)) % 2 ^ 64 }

/-- Marks a region in physical memory as being free:
`blocks = (size + (PHYSALLOC_BLOCK_SIZE - 1)) / PHYSALLOC_BLOCK_SIZE` (the sum
in `size_t`), `align = base / PHYSALLOC_BLOCK_SIZE`, both truncated to
`uint32_t`. -/
def MarkMemoryRegionFree (B : Nat) (s : AllocatorState) (base size : Nat) :
    Option AllocatorState :=
  markFreeLoop ((((size + (B - 1)) % 2 ^ 64) / B) % 2 ^ 32) ((base / B) % 2 ^ 32) s

/-! ## Allocation and free -/

/-- Allocates a block of physical memory. The lock calls and the logging have
no effect on the three globals and are left out. -/
def AllocatePhysicalMemoryBlock (B : Nat) (s : AllocatorState) : AllocResult :=
  match GetFirstFreeMemoryBlock s with
  | none => .undefined
  | some index =>
    if index = 0 then
      .outOfMemory s
    else
      match bit_set s index with
      | none => .undefined
      | some s1 =>
        .returned ((index * B) % 2 ^ 64)
          { s1 with usedPhysicalBlocks := (s1.usedPhysicalBlocks + 1) % 2 ^ 64 }

/-- Frees a block of physical memory. -/
def FreePhysicalMemoryBlock (B : Nat) (s : AllocatorState) (addr : Nat) :
    Option AllocatorState :=
  match bit_clear s (addr / B) with
  | none => none
  | some s1 =>
    some { s1 with usedPhysicalBlocks := (s1.usedPhysicalBlocks + (2 ^ 64 - 1)) % 2 ^ 64 }

/-- The loop `while (blockCount--) bit_clear(index++);` of
`FreeLargePhysicalMemoryBlock`, with `index` a `uint64_t`. -/
def freeLargeLoop : Nat → Nat → AllocatorState → Option AllocatorState
  | 0, _, s => some s
  | blockCount + 1, index, s =>
    match bit_clear s index with
    | none => none
    | some s1 => freeLargeLoop blockCount ((index + 1) % 2 ^ 64) s1

/-- Frees a 2MB block of physical memory: the counter is lowered by the whole
run first, then the bits are cleared one by one. -/
def FreeLargePhysicalMemoryBlock (B : Nat) (s : AllocatorState) (addr : Nat) :
    Option AllocatorState :=
  freeLargeLoop (0x200000 / B) (addr / B)
    { s with usedPhysicalBlocks :=
        (s.usedPhysicalBlocks + (2 ^ 64 - (0x200000 / B) % 2 ^ 64)) % 2 ^ 64 }

/-! ## Initialisation -/

/-- The memory-map walk of `InitializePhysicalAllocator`: a type-1 entry is
freed, a type-0 entry ends the walk, any other entry is skipped. -/
def walkMemoryMap (B : Nat) : List multiboot_memory_map_t → AllocatorState →
    Option AllocatorState
  | [], s => some s
  | e :: rest, s =>
    if e.type = 1 then
      match MarkMemoryRegionFree B s e.base e.length with
      | none => none
      | some s1 => walkMemoryMap B rest s1
    else if e.type = 0 then
      some s
    else
      walkMemoryMap B rest s

/-- The value `(memory_high + memory_low) * 1024 / PHYSALLOC_BLOCK_SIZE` that
the initialiser stores in `maxPhysicalBlocks`, computed in `uint64_t`. -/
def initialMaxBlocks (B : Nat) (mem_info : memory_info_t) : Nat :=
  (((mem_info.memory_high + mem_info.memory_low) % 2 ^ 64) * 1024 % 2 ^ 64) / B

/-- Initialize the physical page allocator. `D` is
`PHYSALLOC_BITMAP_SIZE_DWORDS`; `kernel_end` is the value of
`(uintptr_t)&_end - KERNEL_VIRTUAL_BASE`. The `memset` fills every word with
`0xFFFFFFFF`. -/
def InitializePhysicalAllocator (B D : Nat) (mem_info : memory_info_t)
    (kernel_end : Nat) : Option AllocatorState :=
  let s0 : AllocatorState :=
    { physicalMemoryBitmap := List.replicate D 0xFFFFFFFF
      usedPhysicalBlocks := initialMaxBlocks B mem_info
      maxPhysicalBlocks := initialMaxBlocks B mem_info }
  match walkMemoryMap B mem_info.mem_map s0 with
  | none => none
  | some s1 => MarkMemoryRegionUsed B s1 0 kernel_end

/-! ## Specification vocabulary -/

/-- Number of set bits of the bitmap at the indices in `[0, maxPhysicalBlocks)`. -/
def usedBitCount (s : AllocatorState) : Nat :=
  ((List.range s.maxPhysicalBlocks).filter (fun i => bit_test s i == some true)).length

/-- One call into the allocator after initialisation. -/
inductive Op where
  | allocate
  | free (addr : Nat)
  | freeLarge (addr : Nat)
  | markUsed (base size : Nat)
  | markFree (base size : Nat)
deriving DecidableEq

/-- Runs a sequence of calls from state `s`. The first component lists the
addresses returned by the `allocate` calls, in order, up to the end of the
sequence or to the first call that does not return; the second is the final
state, or `none` when a call did not return. -/
def runOps (B : Nat) : AllocatorState → List Op → List Nat × Option AllocatorState
  | s, [] => ([], some s)
  | s, .allocate :: ops =>
    match AllocatePhysicalMemoryBlock B s with
    | .returned a s1 =>
      let r := runOps B s1 ops
      (a :: r.1, r.2)
    | _ => ([], none)
  | s, .free addr :: ops =>
    match FreePhysicalMemoryBlock B s addr with
    | some s1 => runOps B s1 ops
    | none => ([], none)
  | s, .freeLarge addr :: ops =>
    match FreeLargePhysicalMemoryBlock B s addr with
    | some s1 => runOps B s1 ops
    | none => ([], none)
  | s, .markUsed base size :: ops =>
    match MarkMemoryRegionUsed B s base size with
    | some s1 => runOps B s1 ops
    | none => ([], none)
  | s, .markFree base size :: ops =>
    match MarkMemoryRegionFree B s base size with
    | some s1 => runOps B s1 ops
    | none => ([], none)

/-- The region of the specification's scenario:
`{base=0x100000, length=0x10000, type=1}`. -/
def scenarioRegion : multiboot_memory_map_t :=
  { size := 20, base := 0x100000, length := 0x10000, type := 1 }

/-- A `memory_info` reporting `kib` KiB of memory in total (640 KiB of it low
memory) and the scenario's single usable region. -/
def scenarioInfo (kib : Nat) : memory_info_t :=
  { memory_high := kib - 640, memory_low := 640, mem_map := [scenarioRegion] }

/-- `n` successive calls of `AllocatePhysicalMemoryBlock`: the addresses
returned so far, in order, and how the run ended (the final state when all
`n` calls returned, the failing outcome otherwise). -/
def allocateMany (B : Nat) : Nat → AllocatorState → List Nat × AllocResult
  | 0, s => ([], .returned 0 s)
  | n + 1, s =>
    match AllocatePhysicalMemoryBlock B s with
    | .returned a s1 =>
      let r := allocateMany B n s1
      (a :: r.1, r.2)
    | other => ([], other)

/-- The specification's reading of the large-block free: `count` successive
calls `FreePhysicalMemoryBlock(addr)`, `FreePhysicalMemoryBlock(addr + B)`,
and so on. -/
def freeSuccessive (B : Nat) : Nat → Nat → AllocatorState → Option AllocatorState
  | 0, _, s => some s
  | count + 1, addr, s =>
    match FreePhysicalMemoryBlock B s addr with
    | none => none
    | some s1 => freeSuccessive B count (addr + B) s1

/-- A read of `maxPhysicalBlocks`: the value read and the state left behind. -/
def readMaxPhysicalBlocks (s : AllocatorState) : Nat × AllocatorState :=
  (s.maxPhysicalBlocks, s)

/-- A read of `physicalMemoryBitmap[i]`: the word read and the state left
behind; undefined outside the array. -/
def readBitmapWord (s : AllocatorState) (i : Nat) : Option (Nat × AllocatorState) :=
  match s.physicalMemoryBitmap[i]? with
  | none => none
  | some w => some (w, s)

/-- The inner loop of `GetFirstFreeMemoryBlock` with the state threaded through
each evaluation of `physicalMemoryBitmap[i]`. The result is the index returned
(`none` when the loop ran to its end) and the state left behind. -/
def scanWordSt (i : Nat) : Nat → Nat → AllocatorState → Option (Option Nat × AllocatorState)
  | 0, _, s => some (none, s)
  | k + 1, j, s =>
    match readBitmapWord s i with
    | none => none
    | some (w, s1) =>
      if (w &&& (1 <<< j)) == 0 && (i != 0 || j != 0) then
        some (some ((i * 32 + j) % 2 ^ 32), s1)
      else
        scanWordSt i k (j + 1) s1

/-- The outer loop of `GetFirstFreeMemoryBlock` with the state threaded through
every read: `maxPhysicalBlocks` in the loop test, the bitmap word in the
comparison with `0xffffffff`, then the inner loop. The first argument is fuel,
one unit per evaluation of the loop test. -/
def scanFromSt : Nat → Nat → AllocatorState → Option (Nat × AllocatorState)
  | 0, _, _ => none
  | fuel + 1, i, s =>
    match readMaxPhysicalBlocks s with
    | (m, s1) =>
      if i < m / 32 then
        if i < 2 ^ 32 then
          match readBitmapWord s1 i with
          | none => none
          | some (w, s2) =>
            if w != 0xffffffff then
              match scanWordSt i 32 0 s2 with
              | none => none
              | some (some r, s3) => some (r, s3)
              | some (none, s3) => scanFromSt fuel (i + 1) s3
            else
              scanFromSt fuel (i + 1) s2
        else
          none
      else
        some (0, s1)

/-- `GetFirstFreeMemoryBlock` as a state transformer: the index returned and
the state of the globals after the call. The loop test is evaluated at most
`maxPhysicalBlocks / 32 + 1` times. -/
def GetFirstFreeMemoryBlockSt (s : AllocatorState) : Option (Nat × AllocatorState) :=
  scanFromSt (s.maxPhysicalBlocks / 32 + 1) 0 s

/-! ## Lock discipline -/

/-- What a function body does to `allocatorLock` and to the shared data, in
program order: a call of `acquireLock(&allocatorLock)`, a call of
`releaseLock(&allocatorLock)`, or a write to `physicalMemoryBitmap` or
`usedPhysicalBlocks`. Modelled from the spec: `lock.h` is not among the
sources; the lock is a spin-wait mutual exclusion primitive, taken by
`acquireLock` and given back by `releaseLock`. -/
inductive LockEvent where
  | acquire
  | release
  | write
deriving DecidableEq

/-- The lock calls and writes of one call into the allocator, read off the
function bodies. `AllocatePhysicalMemoryBlock` takes the lock first, and only
on the returning path writes the bit and the counter and releases the lock;
the other four functions contain no lock call: `FreePhysicalMemoryBlock`
writes the bit and the counter, `FreeLargePhysicalMemoryBlock` writes the
counter and then one bit per block, the region functions write a bit and the
counter per block. -/
def opEvents (B : Nat) (s : AllocatorState) : Op → List LockEvent
  | .allocate =>
    match AllocatePhysicalMemoryBlock B s with
    | .returned _ _ => [.acquire, .write, .write, .release]
    | _ => [.acquire]
  | .free _ => [.write, .write]
  | .freeLarge _ => .write :: List.replicate (0x200000 / B) .write
  | .markUsed _ size =>
    (List.replicate ((size / B) % 2 ^ 32) [LockEvent.write, LockEvent.write]).flatten
  | .markFree _ size =>
    (List.replicate ((((size + (B - 1)) % 2 ^ 64) / B) % 2 ^ 32)
      [LockEvent.write, LockEvent.write]).flatten

/-- Whether every write of the event sequence happens while the lock is held;
the first argument tells whether the lock is held at the start. -/
def writesAreGuarded : Bool → List LockEvent → Bool
  | _, [] => true
  | _, .acquire :: es => writesAreGuarded true es
  | _, .release :: es => writesAreGuarded false es
  | held, .write :: es => held && writesAreGuarded held es

/-- Whether the lock is held after the event sequence. -/
def lockHeldAfter : Bool → List LockEvent → Bool
  | held, [] => held
  | _, .acquire :: es => lockHeldAfter true es
  | _, .release :: es => lockHeldAfter false es
  | held, .write :: es => lockHeldAfter held es


/-! ## Word-level facts -/

theorem and_one_shiftLeft_ne_zero (w k : Nat) :
    ((w &&& (1 <<< k)) != 0) = w.testBit k := by
  rw [Nat.one_shiftLeft]
  cases h : w.testBit k
  · have : w &&& 2 ^ k = 0 := by
      apply Nat.eq_of_testBit_eq
      intro i
      rw [Nat.testBit_and, Nat.testBit_two_pow, Nat.zero_testBit]
      by_cases hki : k = i
      · subst hki; simp [h]
      · simp [hki]
    simp [this]
  · have : (w &&& 2 ^ k).testBit k = true := by
      rw [Nat.testBit_and, Nat.testBit_two_pow]; simp [h]
    have hne : w &&& 2 ^ k ≠ 0 := by
      intro h0; rw [h0, Nat.zero_testBit] at this; exact Bool.noConfusion this
    simp [hne]

theorem and_one_shiftLeft_eq_zero (w k : Nat) :
    ((w &&& (1 <<< k)) == 0) = !w.testBit k := by
  have h := and_one_shiftLeft_ne_zero w k
  cases hb : w.testBit k <;> rw [hb] at h <;> simp_all

theorem testBit_setWord (w k j : Nat) :
    ((w ||| (1 <<< k)) % 2 ^ 32).testBit j =
      (decide (j < 32) && (w.testBit j || decide (k = j))) := by
  rw [Nat.testBit_mod_two_pow, Nat.testBit_or, Nat.one_shiftLeft, Nat.testBit_two_pow]

theorem testBit_clearWord (w k j : Nat) :
    (w &&& (0xFFFFFFFF ^^^ (1 <<< k))).testBit j =
      (w.testBit j && (decide (j < 32) != decide (k = j))) := by
  have h : (0xFFFFFFFF : Nat) = 2 ^ 32 - 1 := by norm_num
  rw [h, Nat.testBit_and, Nat.testBit_xor, Nat.one_shiftLeft, Nat.testBit_two_pow,
    Nat.testBit_two_pow_sub_one]

theorem testBit_eq_false_of_lt {w j : Nat} (hw : w < 2 ^ 32) (hj : 32 ≤ j) :
    w.testBit j = false := by
  apply Nat.testBit_lt_two_pow
  exact Nat.lt_of_lt_of_le hw (Nat.pow_le_pow_right (by decide) hj)

theorem clearWord_setWord {w k : Nat} (hw : w < 2 ^ 32)
    (hbit : w.testBit k = false) :
    ((w ||| (1 <<< k)) % 2 ^ 32) &&& (0xFFFFFFFF ^^^ (1 <<< k)) = w := by
  apply Nat.eq_of_testBit_eq
  intro j
  rw [testBit_clearWord, testBit_setWord]
  by_cases hj : j < 32
  · by_cases hkj : k = j
    · subst hkj; simp [hbit]
    · simp [hj, hkj]
  · have : w.testBit j = false := testBit_eq_false_of_lt hw (by omega)
    simp [hj, this]

theorem setWord_lt (w k : Nat) : (w ||| (1 <<< k)) % 2 ^ 32 < 2 ^ 32 :=
  Nat.mod_lt _ (by decide)

theorem clearWord_lt {w : Nat} (k : Nat) (hw : w < 2 ^ 32) :
    w &&& (0xFFFFFFFF ^^^ (1 <<< k)) < 2 ^ 32 :=
  Nat.lt_of_le_of_lt Nat.and_le_left hw

theorem testBit_allOnes {j : Nat} (hj : j < 32) : (0xffffffff : Nat).testBit j = true := by
  have h : (0xffffffff : Nat) = 2 ^ 32 - 1 := by norm_num
  rw [h, Nat.testBit_two_pow_sub_one]; simp [hj]

/-! ## The bit primitives on a state -/

theorem bit_test_eq (s : AllocatorState) (i : Nat) :
    bit_test s i = (s.physicalMemoryBitmap[i / 32]?).map (fun w => w.testBit (i % 32)) := by
  unfold bit_test
  rw [Nat.shiftRight_eq_div_pow]
  show (match s.physicalMemoryBitmap[i / 32]? with
    | none => none
    | some w => some ((w &&& (1 <<< (i % 32))) != 0)) = _
  cases h : s.physicalMemoryBitmap[i / 32]? with
  | none => rfl
  | some w => simp [and_one_shiftLeft_ne_zero]

theorem bit_test_isSome_iff (s : AllocatorState) (i : Nat) :
    (∃ b, bit_test s i = some b) ↔ i < s.capacity := by
  rw [bit_test_eq, AllocatorState.capacity]
  constructor
  · rintro ⟨b, hb⟩
    cases h : s.physicalMemoryBitmap[i / 32]? with
    | none => rw [h] at hb; exact Option.noConfusion hb
    | some w =>
      have := (List.getElem?_eq_some.mp h).1
      omega
  · intro hi
    have hlt : i / 32 < s.physicalMemoryBitmap.length := by omega
    rw [List.getElem?_eq_getElem hlt]
    exact ⟨_, rfl⟩

theorem bit_set_eq_some {s s1 : AllocatorState} {b : Nat} (h : bit_set s b = some s1) :
    ∃ w, s.physicalMemoryBitmap[b / 32]? = some w ∧
      s1 = { s with physicalMemoryBitmap :=
        s.physicalMemoryBitmap.set (b / 32) ((w ||| (1 <<< (b % 32))) % 2 ^ 32) } := by
  unfold bit_set at h
  rw [Nat.shiftRight_eq_div_pow] at h
  change (match s.physicalMemoryBitmap[b / 32]? with
    | none => none
    | some w => some { s with physicalMemoryBitmap :=
        s.physicalMemoryBitmap.set (b / 32) ((w ||| (1 <<< (b % 32))) % 2 ^ 32) }) = some s1 at h
  cases hw : s.physicalMemoryBitmap[b / 32]? with
  | none => rw [hw] at h; exact Option.noConfusion h
  | some w =>
    rw [hw] at h
    exact ⟨w, rfl, (Option.some.inj h).symm⟩

theorem bit_clear_eq_some {s s1 : AllocatorState} {b : Nat} (h : bit_clear s b = some s1) :
    ∃ w, s.physicalMemoryBitmap[b / 32]? = some w ∧
      s1 = { s with physicalMemoryBitmap :=
        s.physicalMemoryBitmap.set (b / 32) (w &&& (0xFFFFFFFF ^^^ (1 <<< (b % 32)))) } := by
  unfold bit_clear at h
  rw [Nat.shiftRight_eq_div_pow] at h
  change (match s.physicalMemoryBitmap[b / 32]? with
    | none => none
    | some w => some { s with physicalMemoryBitmap :=
        s.physicalMemoryBitmap.set (b / 32) (w &&& (0xFFFFFFFF ^^^ (1 <<< (b % 32)))) }) = some s1 at h
  cases hw : s.physicalMemoryBitmap[b / 32]? with
  | none => rw [hw] at h; exact Option.noConfusion h
  | some w =>
    rw [hw] at h
    exact ⟨w, rfl, (Option.some.inj h).symm⟩

theorem bit_set_defined {s : AllocatorState} {b : Nat} (hb : b < s.capacity) :
    ∃ s1, bit_set s b = some s1 := by
  have hlt : b / 32 < s.physicalMemoryBitmap.length := by
    unfold AllocatorState.capacity at hb; omega
  unfold bit_set
  rw [Nat.shiftRight_eq_div_pow]
  change ∃ s1, (match s.physicalMemoryBitmap[b / 32]? with
    | none => none
    | some w => some { s with physicalMemoryBitmap :=
        s.physicalMemoryBitmap.set (b / 32) ((w ||| (1 <<< (b % 32))) % 2 ^ 32) }) = some s1
  rw [List.getElem?_eq_getElem hlt]
  exact ⟨_, rfl⟩

theorem bit_clear_defined {s : AllocatorState} {b : Nat} (hb : b < s.capacity) :
    ∃ s1, bit_clear s b = some s1 := by
  have hlt : b / 32 < s.physicalMemoryBitmap.length := by
    unfold AllocatorState.capacity at hb; omega
  unfold bit_clear
  rw [Nat.shiftRight_eq_div_pow]
  change ∃ s1, (match s.physicalMemoryBitmap[b / 32]? with
    | none => none
    | some w => some { s with physicalMemoryBitmap :=
        s.physicalMemoryBitmap.set (b / 32) (w &&& (0xFFFFFFFF ^^^ (1 <<< (b % 32)))) }) = some s1
  rw [List.getElem?_eq_getElem hlt]
  exact ⟨_, rfl⟩

/-- Effect of `bit_set` on every bit. -/
theorem bit_test_bit_set {s s1 : AllocatorState} {b : Nat} (h : bit_set s b = some s1)
    (i : Nat) : bit_test s1 i = if i = b then some true else bit_test s i := by
  obtain ⟨w, hw, rfl⟩ := bit_set_eq_some h
  have hlt : b / 32 < s.physicalMemoryBitmap.length := (List.getElem?_eq_some.mp hw).1
  rw [bit_test_eq, bit_test_eq]
  by_cases hword : b / 32 = i / 32
  · show ((s.physicalMemoryBitmap.set (b / 32) _)[i / 32]?).map _ = _
    rw [← hword, List.getElem?_set_self hlt, hw]
    simp only [Option.map_some']
    rw [testBit_setWord]
    have him : i % 32 < 32 := Nat.mod_lt _ (by decide)
    by_cases hib : i = b
    · subst hib; simp [him]
    · have hmod : b % 32 ≠ i % 32 := by omega
      simp [him, hib, hmod]
  · show ((s.physicalMemoryBitmap.set (b / 32) _)[i / 32]?).map _ = _
    rw [List.getElem?_set_ne hword]
    have hib : i ≠ b := by intro h'; subst h'; exact hword rfl
    simp [hib]

/-- Effect of `bit_clear` on every bit. -/
theorem bit_test_bit_clear {s s1 : AllocatorState} {b : Nat} (h : bit_clear s b = some s1)
    (i : Nat) : bit_test s1 i = if i = b then some false else bit_test s i := by
  obtain ⟨w, hw, rfl⟩ := bit_clear_eq_some h
  have hlt : b / 32 < s.physicalMemoryBitmap.length := (List.getElem?_eq_some.mp hw).1
  rw [bit_test_eq, bit_test_eq]
  by_cases hword : b / 32 = i / 32
  · show ((s.physicalMemoryBitmap.set (b / 32) _)[i / 32]?).map _ = _
    rw [← hword, List.getElem?_set_self hlt, hw]
    simp only [Option.map_some']
    rw [testBit_clearWord]
    have him : i % 32 < 32 := Nat.mod_lt _ (by decide)
    by_cases hib : i = b
    · subst hib; simp [him]
    · have hmod : b % 32 ≠ i % 32 := by omega
      simp [him, hib, hmod]
  · show ((s.physicalMemoryBitmap.set (b / 32) _)[i / 32]?).map _ = _
    rw [List.getElem?_set_ne hword]
    have hib : i ≠ b := by intro h'; subst h'; exact hword rfl
    simp [hib]

theorem bit_set_fields {s s1 : AllocatorState} {b : Nat} (h : bit_set s b = some s1) :
    s1.usedPhysicalBlocks = s.usedPhysicalBlocks ∧
    s1.maxPhysicalBlocks = s.maxPhysicalBlocks ∧
    s1.physicalMemoryBitmap.length = s.physicalMemoryBitmap.length ∧
    b < s.capacity ∧
    ((∀ w ∈ s.physicalMemoryBitmap, w < 2 ^ 32) →
      ∀ w ∈ s1.physicalMemoryBitmap, w < 2 ^ 32) := by
  obtain ⟨w, hw, rfl⟩ := bit_set_eq_some h
  have hlt : b / 32 < s.physicalMemoryBitmap.length := (List.getElem?_eq_some.mp hw).1
  refine ⟨rfl, rfl, by simp, by unfold AllocatorState.capacity; omega, ?_⟩
  intro hall x hx
  rcases List.mem_or_eq_of_mem_set hx with hx | hx
  · exact hall x hx
  · rw [hx]; exact setWord_lt _ _

theorem bit_clear_fields {s s1 : AllocatorState} {b : Nat} (h : bit_clear s b = some s1) :
    s1.usedPhysicalBlocks = s.usedPhysicalBlocks ∧
    s1.maxPhysicalBlocks = s.maxPhysicalBlocks ∧
    s1.physicalMemoryBitmap.length = s.physicalMemoryBitmap.length ∧
    b < s.capacity ∧
    ((∀ w ∈ s.physicalMemoryBitmap, w < 2 ^ 32) →
      ∀ w ∈ s1.physicalMemoryBitmap, w < 2 ^ 32) := by
  obtain ⟨w, hw, rfl⟩ := bit_clear_eq_some h
  have hlt : b / 32 < s.physicalMemoryBitmap.length := (List.getElem?_eq_some.mp hw).1
  refine ⟨rfl, rfl, by simp, by unfold AllocatorState.capacity; omega, ?_⟩
  intro hall x hx
  rcases List.mem_or_eq_of_mem_set hx with hx | hx
  · exact hall x hx
  · rw [hx]; exact clearWord_lt _ (hall w (List.mem_iff_getElem?.mpr ⟨_, hw⟩))

/-! ## The region loops -/

theorem bit_test_with_used (s : AllocatorState) (u i : Nat) :
    bit_test { s with usedPhysicalBlocks := u } i = bit_test s i := rfl

theorem markUsedLoop_spec : ∀ (n a : Nat) (s : AllocatorState),
    a + n ≤ s.capacity → s.capacity < 2 ^ 32 → s.usedPhysicalBlocks < 2 ^ 64 →
    ∃ s1, markUsedLoop n a s = some s1 ∧
      s1.maxPhysicalBlocks = s.maxPhysicalBlocks ∧
      s1.usedPhysicalBlocks = (s.usedPhysicalBlocks + n) % 2 ^ 64 ∧
      s1.physicalMemoryBitmap.length = s.physicalMemoryBitmap.length ∧
      (∀ i, bit_test s1 i = if a ≤ i ∧ i < a + n then some true else bit_test s i) ∧
      ((∀ w ∈ s.physicalMemoryBitmap, w < 2 ^ 32) →
        ∀ w ∈ s1.physicalMemoryBitmap, w < 2 ^ 32) := by
  intro n
  induction n with
  | zero =>
    intro a s _ _ hu
    refine ⟨s, rfl, rfl, ?_, rfl, ?_, fun h => h⟩
    · rw [Nat.add_zero, Nat.mod_eq_of_lt hu]
    · intro i
      have : ¬ (a ≤ i ∧ i < a + 0) := by omega
      rw [if_neg this]
  | succ n ih =>
    intro a s hcap h32 hu
    obtain ⟨s1, hs1⟩ := bit_set_defined (s := s) (b := a) (by omega)
    obtain ⟨hused, hmax, hlen, _, hwords⟩ := bit_set_fields hs1
    have hbits := bit_test_bit_set hs1
    have hcap1 : ({ s1 with usedPhysicalBlocks := (s1.usedPhysicalBlocks + 1) % 2 ^ 64 } :
        AllocatorState).capacity = s.capacity := by
      unfold AllocatorState.capacity; rw [hlen]
    have hmod : (a + 1) % 2 ^ 32 = a + 1 := Nat.mod_eq_of_lt (by omega)
    obtain ⟨s2, hs2, hmax2, hused2, hlen2, hbits2, hwords2⟩ :=
      ih (a + 1) { s1 with usedPhysicalBlocks := (s1.usedPhysicalBlocks + 1) % 2 ^ 64 }
        (by rw [hcap1]; omega) (by rw [hcap1]; exact h32) (Nat.mod_lt _ (by decide))
    refine ⟨s2, ?_, ?_, ?_, ?_, ?_, ?_⟩
    · show (match bit_set s a with
        | none => none
        | some s1 => markUsedLoop n ((a + 1) % 2 ^ 32)
            { s1 with usedPhysicalBlocks := (s1.usedPhysicalBlocks + 1) % 2 ^ 64 }) = some s2
      rw [hs1]
      show markUsedLoop n ((a + 1) % 2 ^ 32) _ = some s2
      rw [hmod]; exact hs2
    · rw [hmax2]; exact hmax
    · rw [hused2]
      show ((s1.usedPhysicalBlocks + 1) % 2 ^ 64 + n) % 2 ^ 64 = _
      rw [hused]; omega
    · rw [hlen2]; exact hlen
    · intro i
      rw [hbits2 i, bit_test_with_used, hbits i]
      by_cases h1 : a + 1 ≤ i ∧ i < a + 1 + n
      · have h2 : a ≤ i ∧ i < a + (n + 1) := by omega
        rw [if_pos h1, if_pos h2]
      · rw [if_neg h1]
        by_cases h3 : i = a
        · have h2 : a ≤ i ∧ i < a + (n + 1) := by omega
          rw [if_pos h3, if_pos h2]
        · have h2 : ¬ (a ≤ i ∧ i < a + (n + 1)) := by omega
          rw [if_neg h3, if_neg h2]
    · intro hall
      exact hwords2 (hwords hall)

theorem markFreeLoop_spec : ∀ (n a : Nat) (s : AllocatorState),
    a + n ≤ s.capacity → s.capacity < 2 ^ 32 → s.usedPhysicalBlocks < 2 ^ 64 →
    ∃ s1, markFreeLoop n a s = some s1 ∧
      s1.maxPhysicalBlocks = s.maxPhysicalBlocks ∧
      s1.usedPhysicalBlocks = (s.usedPhysicalBlocks + (2 ^ 64 - n)) % 2 ^ 64 ∧
      s1.physicalMemoryBitmap.length = s.physicalMemoryBitmap.length ∧
      (∀ i, bit_test s1 i = if a ≤ i ∧ i < a + n then some false else bit_test s i) ∧
      ((∀ w ∈ s.physicalMemoryBitmap, w < 2 ^ 32) →
        ∀ w ∈ s1.physicalMemoryBitmap, w < 2 ^ 32) := by
  intro n
  induction n with
  | zero =>
    intro a s _ _ hu
    refine ⟨s, rfl, rfl, ?_, rfl, ?_, fun h => h⟩
    · omega
    · intro i
      have : ¬ (a ≤ i ∧ i < a + 0) := by omega
      rw [if_neg this]
  | succ n ih =>
    intro a s hcap h32 hu
    obtain ⟨s1, hs1⟩ := bit_clear_defined (s := s) (b := a) (by omega)
    obtain ⟨hused, hmax, hlen, _, hwords⟩ := bit_clear_fields hs1
    have hbits := bit_test_bit_clear hs1
    have hcap1 : ({ s1 with usedPhysicalBlocks :=
        (s1.usedPhysicalBlocks + (2 ^ 64 - 1)) % 2 ^ 64 } : AllocatorState).capacity
          = s.capacity := by
      unfold AllocatorState.capacity; rw [hlen]
    have hmod : (a + 1) % 2 ^ 32 = a + 1 := Nat.mod_eq_of_lt (by omega)
    obtain ⟨s2, hs2, hmax2, hused2, hlen2, hbits2, hwords2⟩ :=
      ih (a + 1) { s1 with usedPhysicalBlocks :=
          (s1.usedPhysicalBlocks + (2 ^ 64 - 1)) % 2 ^ 64 }
        (by rw [hcap1]; omega) (by rw [hcap1]; exact h32) (Nat.mod_lt _ (by decide))
    refine ⟨s2, ?_, ?_, ?_, ?_, ?_, ?_⟩
    · show (match bit_clear s a with
        | none => none
        | some s1 => markFreeLoop n ((a + 1) % 2 ^ 32)
            { s1 with usedPhysicalBlocks :=
                (s1.usedPhysicalBlocks + (2 ^ 64 - 1)) % 2 ^ 64 }) = some s2
      rw [hs1]
      show markFreeLoop n ((a + 1) % 2 ^ 32) _ = some s2
      rw [hmod]; exact hs2
    · rw [hmax2]; exact hmax
    · rw [hused2]
      show ((s1.usedPhysicalBlocks + (2 ^ 64 - 1)) % 2 ^ 64 + (2 ^ 64 - n)) % 2 ^ 64 = _
      rw [hused]
      have hn : n + 1 < 2 ^ 32 := by omega
      omega
    · rw [hlen2]; exact hlen
    · intro i
      rw [hbits2 i, bit_test_with_used, hbits i]
      by_cases h1 : a + 1 ≤ i ∧ i < a + 1 + n
      · have h2 : a ≤ i ∧ i < a + (n + 1) := by omega
        rw [if_pos h1, if_pos h2]
      · rw [if_neg h1]
        by_cases h3 : i = a
        · have h2 : a ≤ i ∧ i < a + (n + 1) := by omega
          rw [if_pos h3, if_pos h2]
        · have h2 : ¬ (a ≤ i ∧ i < a + (n + 1)) := by omega
          rw [if_neg h3, if_neg h2]
    · intro hall
      exact hwords2 (hwords hall)

/-! ## The scan for a free block -/

theorem scanWord_cond (w i j : Nat) :
    ((w &&& (1 <<< j)) == 0 && (i != 0 || j != 0)) = true ↔
      w.testBit j = false ∧ (i ≠ 0 ∨ j ≠ 0) := by
  rw [and_one_shiftLeft_eq_zero]
  cases w.testBit j <;> simp

theorem scanWord_some (w i : Nat) : ∀ (k j r : Nat), scanWord w i k j = some r →
    ∃ b, j ≤ b ∧ b < j + k ∧ r = (i * 32 + b) % 2 ^ 32 ∧ w.testBit b = false ∧
      (i ≠ 0 ∨ b ≠ 0) ∧
      ∀ c, j ≤ c → c < b → (w.testBit c = true ∨ (i = 0 ∧ c = 0)) := by
  intro k
  induction k with
  | zero => intro j r h; exact Option.noConfusion h
  | succ k ih =>
    intro j r h
    unfold scanWord at h
    by_cases hc : ((w &&& (1 <<< j)) == 0 && (i != 0 || j != 0)) = true
    · rw [if_pos hc] at h
      obtain ⟨hbit, hnz⟩ := (scanWord_cond w i j).mp hc
      refine ⟨j, Nat.le_refl _, by omega, (Option.some.inj h).symm, hbit, hnz, ?_⟩
      intro c h1 h2; omega
    · rw [if_neg hc] at h
      obtain ⟨b, hb1, hb2, hr, hbit, hnz, hprev⟩ := ih (j + 1) r h
      refine ⟨b, by omega, by omega, hr, hbit, hnz, ?_⟩
      intro c h1 h2
      by_cases hcj : c = j
      · subst hcj
        rw [scanWord_cond] at hc
        by_cases ht : w.testBit c = true
        · exact Or.inl ht
        · right
          have hf : w.testBit c = false := by simpa using ht
          by_contra hcon
          apply hc
          refine ⟨hf, ?_⟩
          by_contra hcon2
          apply hcon
          omega
      · exact hprev c (by omega) h2

theorem scanWord_none (w i : Nat) : ∀ (k j : Nat), scanWord w i k j = none →
    ∀ c, j ≤ c → c < j + k → (w.testBit c = true ∨ (i = 0 ∧ c = 0)) := by
  intro k
  induction k with
  | zero => intro j _ c h1 h2; omega
  | succ k ih =>
    intro j h c h1 h2
    unfold scanWord at h
    by_cases hc : ((w &&& (1 <<< j)) == 0 && (i != 0 || j != 0)) = true
    · rw [if_pos hc] at h; exact Option.noConfusion h
    · rw [if_neg hc] at h
      by_cases hcj : c = j
      · subst hcj
        rw [scanWord_cond] at hc
        by_cases ht : w.testBit c = true
        · exact Or.inl ht
        · right
          have hf : w.testBit c = false := by simpa using ht
          by_contra hcon
          apply hc
          refine ⟨hf, ?_⟩
          by_contra hcon2
          apply hcon
          omega
      · exact ih (j + 1) h c (by omega) (by omega)

theorem scanWord_eq_none_of (w i : Nat) : ∀ (k j : Nat),
    (∀ c, j ≤ c → c < j + k → (w.testBit c = true ∨ (i = 0 ∧ c = 0))) →
    scanWord w i k j = none := by
  intro k j hall
  cases h : scanWord w i k j with
  | none => rfl
  | some r =>
    obtain ⟨b, hb1, hb2, _, hbit, hnz, _⟩ := scanWord_some w i k j r h
    rcases hall b hb1 hb2 with ht | ⟨h0, hb0⟩
    · rw [hbit] at ht; exact Bool.noConfusion ht
    · rcases hnz with h' | h'
      · exact absurd h0 h'
      · exact absurd hb0 h'

theorem scanFrom_succ (bm : List Nat) (n i : Nat) :
    scanFrom bm (n + 1) i =
      if i < 2 ^ 32 then
        match bm[i]? with
        | none => none
        | some w =>
          if w != 0xffffffff then
            match scanWord w i 32 0 with
            | some r => some r
            | none => scanFrom bm n (i + 1)
          else
            scanFrom bm n (i + 1)
      else
        none := rfl

/-- Every index found by the scan fits a `uint32_t`. -/
theorem scanFrom_lt (bm : List Nat) : ∀ (n i r : Nat), scanFrom bm n i = some r →
    r < 2 ^ 32 := by
  intro n
  induction n with
  | zero =>
    intro i r h
    have : r = 0 := (Option.some.inj h).symm
    omega
  | succ n ih =>
    intro i r h
    rw [scanFrom_succ] at h
    by_cases hi : i < 2 ^ 32
    · rw [if_pos hi] at h
      cases hw : bm[i]? with
      | none => rw [hw] at h; exact Option.noConfusion h
      | some w =>
        rw [hw] at h
        simp only at h
        by_cases hfull : (w != 0xffffffff) = true
        · rw [if_pos hfull] at h
          cases hs : scanWord w i 32 0 with
          | none => rw [hs] at h; exact ih _ _ h
          | some r1 =>
            rw [hs] at h
            obtain ⟨b, _, _, hr, _⟩ := scanWord_some w i 32 0 r1 hs
            have : r = r1 := (Option.some.inj h).symm
            rw [this, hr]
            exact Nat.mod_lt _ (by decide)
        · rw [if_neg hfull] at h
          exact ih _ _ h
    · rw [if_neg hi] at h; exact Option.noConfusion h

theorem bit_test_of_word {s : AllocatorState} {i w : Nat}
    (hw : s.physicalMemoryBitmap[i]? = some w) (b : Nat) (hb : b < 32) :
    bit_test s (i * 32 + b) = some (w.testBit b) := by
  rw [bit_test_eq]
  have h1 : (i * 32 + b) / 32 = i := by omega
  have h2 : (i * 32 + b) % 32 = b := by omega
  rw [h1, h2, hw]; rfl

/-- What the scan returns: a nonzero result is a clear bit below the scanned
bound with only set bits (block 0 apart) before it; a zero result means every
scanned bit other than block 0 is set. -/
theorem scanFrom_spec (s : AllocatorState) (h32 : s.capacity < 2 ^ 32) :
    ∀ (n i r : Nat), scanFrom s.physicalMemoryBitmap n i = some r →
      (∀ m, 32 * i ≤ m → m < (if r = 0 then 32 * (i + n) else r) → m ≠ 0 →
        bit_test s m = some true) ∧
      (r ≠ 0 → 32 * i ≤ r ∧ r < 32 * (i + n) ∧ bit_test s r = some false) := by
  intro n
  induction n with
  | zero =>
    intro i r h
    have hr : r = 0 := (Option.some.inj h).symm
    subst hr
    refine ⟨?_, fun h => absurd rfl h⟩
    intro m h1 h2 _
    rw [if_pos rfl] at h2; omega
  | succ n ih =>
    intro i r h
    rw [scanFrom_succ] at h
    by_cases hi : i < 2 ^ 32
    · rw [if_pos hi] at h
      cases hw : s.physicalMemoryBitmap[i]? with
      | none => rw [hw] at h; exact Option.noConfusion h
      | some w =>
        rw [hw] at h
        simp only at h
        have hlen : i < s.physicalMemoryBitmap.length := (List.getElem?_eq_some.mp hw).1
        have hcap : i * 32 + 32 ≤ s.capacity := by unfold AllocatorState.capacity; omega
        -- the recursive case, shared by a full word and a word without a hit
        have hrec : (∀ c, c < 32 → (w.testBit c = true ∨ (i = 0 ∧ c = 0))) →
            scanFrom s.physicalMemoryBitmap n (i + 1) = some r →
            (∀ m, 32 * i ≤ m → m < (if r = 0 then 32 * (i + (n + 1)) else r) → m ≠ 0 →
              bit_test s m = some true) ∧
            (r ≠ 0 → 32 * i ≤ r ∧ r < 32 * (i + (n + 1)) ∧ bit_test s r = some false) := by
          intro hword hrest
          obtain ⟨hA, hB⟩ := ih (i + 1) r hrest
          constructor
          · intro m h1 h2 h3
            by_cases hm : m < 32 * (i + 1)
            · have hsplit : m = i * 32 + (m - i * 32) := by omega
              rw [hsplit, bit_test_of_word hw _ (by omega)]
              rcases hword (m - i * 32) (by omega) with ht | ⟨hi0, hc0⟩
              · rw [ht]
              · omega
            · apply hA m (by omega) _ h3
              by_cases hr0 : r = 0
              · rw [if_pos hr0] at h2 ⊢; omega
              · rw [if_neg hr0] at h2 ⊢; exact h2
          · intro hr0
            obtain ⟨h1, h2, h3⟩ := hB hr0
            exact ⟨by omega, by omega, h3⟩
        by_cases hfull : (w != 0xffffffff) = true
        · rw [if_pos hfull] at h
          cases hs : scanWord w i 32 0 with
          | none =>
            rw [hs] at h
            apply hrec _ h
            intro c hc
            exact scanWord_none w i 32 0 hs c (Nat.zero_le _) (by omega)
          | some r1 =>
            rw [hs] at h
            have hr : r = r1 := (Option.some.inj h).symm
            obtain ⟨b, _, hb2, hr1, hbit, hnz, hprev⟩ := scanWord_some w i 32 0 r1 hs
            have hval : r = i * 32 + b := by
              rw [hr, hr1]; exact Nat.mod_eq_of_lt (by omega)
            have hne : r ≠ 0 := by omega
            constructor
            · intro m h1 h2 h3
              rw [if_neg hne] at h2
              have hsplit : m = i * 32 + (m - i * 32) := by omega
              rw [hsplit, bit_test_of_word hw _ (by omega)]
              rcases hprev (m - i * 32) (Nat.zero_le _) (by omega) with ht | ⟨hi0, hc0⟩
              · rw [ht]
              · omega
            · intro _
              refine ⟨by omega, by omega, ?_⟩
              rw [hval, bit_test_of_word hw _ (by omega), hbit]
        · rw [if_neg hfull] at h
          apply hrec _ h
          intro c hc
          have hweq : w = 0xffffffff := by simpa using hfull
          rw [hweq]
          exact Or.inl (testBit_allOnes hc)
    · rw [if_neg hi] at h; exact Option.noConfusion h

/-- The scan returns the sentinel when every scanned bit other than block 0 is set. -/
theorem scanFrom_all_used (s : AllocatorState) (h32 : s.capacity < 2 ^ 32) :
    ∀ (n i : Nat),
      (∀ m, 32 * i ≤ m → m < 32 * (i + n) → m ≠ 0 → bit_test s m = some true) →
      scanFrom s.physicalMemoryBitmap n i = some 0 := by
  intro n
  induction n with
  | zero => intro i _; rfl
  | succ n ih =>
    intro i hall
    have hin : bit_test s (32 * i + 1) = some true := hall _ (by omega) (by omega) (by omega)
    have hcap : 32 * i + 1 < s.capacity := (bit_test_isSome_iff s _).mp ⟨_, hin⟩
    have hlen : i < s.physicalMemoryBitmap.length := by
      unfold AllocatorState.capacity at hcap; omega
    have hi : i < 2 ^ 32 := by omega
    have hrest : scanFrom s.physicalMemoryBitmap n (i + 1) = some 0 :=
      ih (i + 1) (fun m h1 h2 h3 => hall m (by omega) (by omega) h3)
    rw [scanFrom_succ, if_pos hi, List.getElem?_eq_getElem hlen]
    simp only
    have hw : s.physicalMemoryBitmap[i]? = some s.physicalMemoryBitmap[i] :=
      List.getElem?_eq_getElem hlen
    by_cases hfull : (s.physicalMemoryBitmap[i] != 0xffffffff) = true
    · rw [if_pos hfull]
      have hnone : scanWord s.physicalMemoryBitmap[i] i 32 0 = none := by
        apply scanWord_eq_none_of
        intro c _ hc
        by_cases h0 : i = 0 ∧ c = 0
        · exact Or.inr h0
        · left
          have := hall (i * 32 + c) (by omega) (by omega) (by omega)
          rw [bit_test_of_word hw c (by omega)] at this
          exact Option.some.inj this
      rw [hnone]
      exact hrest
    · rw [if_neg hfull]
      exact hrest

/-! ## Allocation and free: unfolding lemmas -/

theorem allocate_returned {B : Nat} {s s1 : AllocatorState} {a : Nat}
    (h : AllocatePhysicalMemoryBlock B s = .returned a s1) :
    ∃ index sb, GetFirstFreeMemoryBlock s = some index ∧ index ≠ 0 ∧
      bit_set s index = some sb ∧ a = (index * B) % 2 ^ 64 ∧
      s1 = { sb with usedPhysicalBlocks := (sb.usedPhysicalBlocks + 1) % 2 ^ 64 } := by
  unfold AllocatePhysicalMemoryBlock at h
  cases hg : GetFirstFreeMemoryBlock s with
  | none => rw [hg] at h; exact AllocResult.noConfusion h
  | some index =>
    rw [hg] at h
    simp only at h
    by_cases h0 : index = 0
    · rw [if_pos h0] at h; exact AllocResult.noConfusion h
    · rw [if_neg h0] at h
      cases hb : bit_set s index with
      | none => rw [hb] at h; exact AllocResult.noConfusion h
      | some sb =>
        rw [hb] at h
        simp only at h
        injection h with ha hs
        exact ⟨index, sb, rfl, h0, hb, ha.symm, hs.symm⟩

theorem allocate_of_sentinel {B : Nat} {s : AllocatorState}
    (h : GetFirstFreeMemoryBlock s = some 0) :
    AllocatePhysicalMemoryBlock B s = .outOfMemory s := by
  unfold AllocatePhysicalMemoryBlock
  rw [h]
  rfl

theorem index_mul_lt {B index : Nat} (hB : ValidBlockSize B) (hi : index < 2 ^ 32) :
    index * B < 2 ^ 64 := by
  have h1 : index * B ≤ 2 ^ 32 * 2 ^ 31 := Nat.mul_le_mul (Nat.le_of_lt hi) (Nat.le_of_lt hB.2)
  have h2 : (2 : Nat) ^ 32 * 2 ^ 31 < 2 ^ 64 := by norm_num
  omega

theorem list_set_same {α : Type} {l : List α} {i : Nat} {a : α} (h : l[i]? = some a) :
    l.set i a = l := by
  apply List.ext_getElem?
  intro j
  by_cases hij : i = j
  · subst hij
    rw [List.getElem?_set_self (List.getElem?_eq_some.mp h).1, h]
  · rw [List.getElem?_set_ne hij]

/-- What a returning allocation did, in a state whose block indices fit 32 bits. -/
theorem allocate_returned_spec {B : Nat} {s s1 : AllocatorState} {a : Nat}
    (hB : ValidBlockSize B) (h32 : s.capacity < 2 ^ 32)
    (h : AllocatePhysicalMemoryBlock B s = .returned a s1) :
    ∃ n sb, GetFirstFreeMemoryBlock s = some n ∧ 1 ≤ n ∧ n < 32 * (s.maxPhysicalBlocks / 32) ∧
      bit_test s n = some false ∧
      (∀ m, 1 ≤ m → m < n → bit_test s m = some true) ∧
      a = n * B ∧ bit_set s n = some sb ∧
      s1 = { sb with usedPhysicalBlocks := (sb.usedPhysicalBlocks + 1) % 2 ^ 64 } := by
  obtain ⟨n, sb, hg, hn0, hb, ha, hs1⟩ := allocate_returned h
  have hlt : n < 2 ^ 32 := scanFrom_lt _ _ _ _ hg
  obtain ⟨hA, hC⟩ := scanFrom_spec s h32 _ _ _ hg
  obtain ⟨_, h2, h3⟩ := hC hn0
  refine ⟨n, sb, hg, by omega, by omega, h3, ?_, ?_, hb, hs1⟩
  · intro m hm1 hm2
    apply hA m (by omega) _ (by omega)
    rw [if_neg hn0]; exact hm2
  · rw [ha]; exact Nat.mod_eq_of_lt (index_mul_lt hB hlt)

/-- A returned address is a nonzero multiple of the block size. -/
theorem allocate_returned_nonzero {B : Nat} {s s1 : AllocatorState} {a : Nat}
    (hB : ValidBlockSize B) (h : AllocatePhysicalMemoryBlock B s = .returned a s1) :
    ∃ index, GetFirstFreeMemoryBlock s = some index ∧ index ≠ 0 ∧ a = index * B ∧ B ≤ a := by
  obtain ⟨index, sb, hg, hn0, _, haddr, _⟩ := allocate_returned h
  have hlt : index < 2 ^ 32 := scanFrom_lt _ _ _ _ hg
  have hval : a = index * B := by
    rw [haddr]; exact Nat.mod_eq_of_lt (index_mul_lt hB hlt)
  refine ⟨index, hg, hn0, hval, ?_⟩
  rw [hval]
  exact Nat.le_mul_of_pos_left B (Nat.pos_of_ne_zero hn0)

/-- Every address returned along a run is a nonzero multiple of the block size. -/
theorem runOps_addresses_nonzero (B : Nat) (hB : ValidBlockSize B) (ops : List Op) :
    ∀ (s : AllocatorState), ∀ a ∈ (runOps B s ops).1,
      ∃ index, index ≠ 0 ∧ a = index * B ∧ B ≤ a := by
  induction ops with
  | nil => intro s a ha; exact absurd ha (List.not_mem_nil a)
  | cons op ops ih =>
    intro s a ha
    cases op with
    | allocate =>
      cases hres : AllocatePhysicalMemoryBlock B s with
      | returned a1 s1 =>
        simp only [runOps, hres] at ha
        rcases List.mem_cons.mp ha with h1 | h1
        · obtain ⟨index, _, hn0, hval, hle⟩ := allocate_returned_nonzero hB hres
          rw [h1]
          exact ⟨index, hn0, hval, hle⟩
        · exact ih s1 a h1
      | outOfMemory s1 =>
        simp only [runOps, hres] at ha
        exact absurd ha (List.not_mem_nil a)
      | undefined =>
        simp only [runOps, hres] at ha
        exact absurd ha (List.not_mem_nil a)
    | free addr =>
      cases hres : FreePhysicalMemoryBlock B s addr with
      | none => simp only [runOps, hres] at ha; exact absurd ha (List.not_mem_nil a)
      | some s1 => simp only [runOps, hres] at ha; exact ih s1 a ha
    | freeLarge addr =>
      cases hres : FreeLargePhysicalMemoryBlock B s addr with
      | none => simp only [runOps, hres] at ha; exact absurd ha (List.not_mem_nil a)
      | some s1 => simp only [runOps, hres] at ha; exact ih s1 a ha
    | markUsed base size =>
      cases hres : MarkMemoryRegionUsed B s base size with
      | none => simp only [runOps, hres] at ha; exact absurd ha (List.not_mem_nil a)
      | some s1 => simp only [runOps, hres] at ha; exact ih s1 a ha
    | markFree base size =>
      cases hres : MarkMemoryRegionFree B s base size with
      | none => simp only [runOps, hres] at ha; exact absurd ha (List.not_mem_nil a)
      | some s1 => simp only [runOps, hres] at ha; exact ih s1 a ha

/-! ## Further facts about the scan and the initialiser -/

/-- The scan returns a value when the words it reads are inside the array. -/
theorem scanFrom_defined (bm : List Nat) (h32 : bm.length * 32 < 2 ^ 32) :
    ∀ (n i : Nat), i + n ≤ bm.length → ∃ r, scanFrom bm n i = some r := by
  intro n
  induction n with
  | zero => intro i _; exact ⟨0, rfl⟩
  | succ n ih =>
    intro i hin
    have hlen : i < bm.length := by omega
    have hi : i < 2 ^ 32 := by omega
    obtain ⟨r, hr⟩ := ih (i + 1) (by omega)
    rw [scanFrom_succ, if_pos hi, List.getElem?_eq_getElem hlen]
    simp only
    by_cases hfull : (bm[i] != 0xffffffff) = true
    · rw [if_pos hfull]
      cases hs : scanWord bm[i] i 32 0 with
      | none => exact ⟨r, hr⟩
      | some r1 => exact ⟨r1, rfl⟩
    · rw [if_neg hfull]; exact ⟨r, hr⟩

/-- Within the whole words below `maxPhysicalBlocks`, a free block other than
block 0 makes the allocation return. -/
theorem allocate_returns_of_scanned_free {B : Nat} {s : AllocatorState}
    (hs : s.WellTyped) (hmax : s.maxPhysicalBlocks ≤ s.capacity) {idx : Nat}
    (h1 : 1 ≤ idx) (h2 : idx < 32 * (s.maxPhysicalBlocks / 32))
    (hfree : bit_test s idx = some false) :
    ∃ a s1, AllocatePhysicalMemoryBlock B s = .returned a s1 := by
  have h32 : s.capacity < 2 ^ 32 := hs.2.2.2
  have hwords : 0 + s.maxPhysicalBlocks / 32 ≤ s.physicalMemoryBitmap.length := by
    unfold AllocatorState.capacity at hmax; omega
  obtain ⟨r, hr⟩ := scanFrom_defined s.physicalMemoryBitmap h32 _ 0 hwords
  obtain ⟨hA, hC⟩ := scanFrom_spec s h32 _ _ _ hr
  have hr0 : r ≠ 0 := by
    intro h0
    have := hA idx (by omega) (by rw [if_pos h0]; omega) (by omega)
    rw [hfree] at this
    exact Bool.noConfusion (Option.some.inj this)
  obtain ⟨_, hlt, _⟩ := hC hr0
  obtain ⟨sb, hsb⟩ := bit_set_defined (s := s) (b := r) (by omega)
  refine ⟨(r * B) % 2 ^ 64,
    { sb with usedPhysicalBlocks := (sb.usedPhysicalBlocks + 1) % 2 ^ 64 }, ?_⟩
  unfold AllocatePhysicalMemoryBlock GetFirstFreeMemoryBlock
  rw [hr]
  simp only
  rw [if_neg hr0, hsb]

/-- Two allocations in a row return increasing addresses. -/
theorem consecutive_allocations_increase {B : Nat} {s s1 s2 : AllocatorState} {a b : Nat}
    (hB : ValidBlockSize B) (hs : s.WellTyped)
    (h1 : AllocatePhysicalMemoryBlock B s = .returned a s1)
    (h2 : AllocatePhysicalMemoryBlock B s1 = .returned b s2) : a < b := by
  have h32 : s.capacity < 2 ^ 32 := hs.2.2.2
  obtain ⟨n, sb, _, hn1, _, _, hmin, ha, hset, hs1⟩ := allocate_returned_spec hB h32 h1
  obtain ⟨_, _, hlen, _, _⟩ := bit_set_fields hset
  have hbits := bit_test_bit_set hset
  have h32' : s1.capacity < 2 ^ 32 := by
    unfold AllocatorState.capacity at h32 ⊢
    rw [hs1]
    show sb.physicalMemoryBitmap.length * 32 < 2 ^ 32
    rw [hlen]; exact h32
  obtain ⟨m, _, _, hm1, _, hmfree, _, hb, _, _⟩ := allocate_returned_spec hB h32' h2
  have hmfree' : (if m = n then some true else bit_test s m) = some false := by
    rw [← hbits m, ← bit_test_with_used sb ((sb.usedPhysicalBlocks + 1) % 2 ^ 64) m, ← hs1]
    exact hmfree
  have hne : m ≠ n := by
    intro h
    rw [if_pos h] at hmfree'
    exact Bool.noConfusion (Option.some.inj hmfree')
  rw [if_neg hne] at hmfree'
  have hlt : n < m := by
    by_contra hcon
    have := hmin m hm1 (by omega)
    rw [hmfree'] at this
    exact Bool.noConfusion (Option.some.inj this)
  rw [ha, hb]
  exact Nat.mul_lt_mul_of_pos_right hlt hB.1

theorem bit_test_replicate (D u m i : Nat) :
    bit_test ⟨List.replicate D 0xFFFFFFFF, u, m⟩ i = if i < D * 32 then some true else none := by
  rw [bit_test_eq]
  show ((List.replicate D 0xFFFFFFFF)[i / 32]?).map _ = _
  rw [List.getElem?_replicate]
  by_cases h : i < D * 32
  · have h' : i / 32 < D := by omega
    rw [if_pos h, if_pos h']
    show some ((0xFFFFFFFF : Nat).testBit (i % 32)) = some true
    rw [testBit_allOnes (Nat.mod_lt _ (by decide))]
  · have h' : ¬ i / 32 < D := by omega
    rw [if_neg h, if_neg h']
    rfl

/-- The specification's scenario for every bitmap size and every amount of
memory: the initialiser leaves exactly blocks 256..271 clear, and the counter
at `maxPhysicalBlocks + 240` (modulo `2 ^ 64`). -/
theorem init_scenario (D : Nat) (mem_info : memory_info_t)
    (hmap : mem_info.mem_map = [scenarioRegion])
    (hD : 272 ≤ D * 32) (h32 : D * 32 < 2 ^ 32) :
    ∃ s, InitializePhysicalAllocator 0x1000 D mem_info 0x100000 = some s ∧
      (∀ i, bit_test s i =
        if i < D * 32 then some (decide (¬ (256 ≤ i ∧ i < 272))) else none) ∧
      s.maxPhysicalBlocks = initialMaxBlocks 0x1000 mem_info ∧
      s.usedPhysicalBlocks = (initialMaxBlocks 0x1000 mem_info + 240) % 2 ^ 64 := by
  have hmaxlt : initialMaxBlocks 0x1000 mem_info < 2 ^ 64 := by
    unfold initialMaxBlocks
    exact Nat.lt_of_le_of_lt (Nat.div_le_self _ _) (Nat.mod_lt _ (by decide))
  have hcap0 : (⟨List.replicate D 0xFFFFFFFF, initialMaxBlocks 0x1000 mem_info,
      initialMaxBlocks 0x1000 mem_info⟩ : AllocatorState).capacity = D * 32 := by
    unfold AllocatorState.capacity; simp
  obtain ⟨s1, hs1, hmax1, hused1, hlen1, hbits1, _⟩ :=
    markFreeLoop_spec 16 256 ⟨List.replicate D 0xFFFFFFFF, initialMaxBlocks 0x1000 mem_info,
      initialMaxBlocks 0x1000 mem_info⟩ (by rw [hcap0]; omega) (by rw [hcap0]; exact h32) hmaxlt
  have hcap1 : s1.capacity = D * 32 := by
    unfold AllocatorState.capacity; rw [hlen1]; simp
  have hu1 : s1.usedPhysicalBlocks < 2 ^ 64 := by
    rw [hused1]; exact Nat.mod_lt _ (by decide)
  obtain ⟨s2, hs2, hmax2, hused2, _, hbits2, _⟩ :=
    markUsedLoop_spec 256 0 s1 (by rw [hcap1]; omega) (by rw [hcap1]; exact h32) hu1
  refine ⟨s2, ?_, ?_, ?_, ?_⟩
  · unfold InitializePhysicalAllocator
    simp only [hmap]
    have hwalk : walkMemoryMap 0x1000 [scenarioRegion]
        ⟨List.replicate D 0xFFFFFFFF, initialMaxBlocks 0x1000 mem_info,
          initialMaxBlocks 0x1000 mem_info⟩ = some s1 := by
      have hfree : MarkMemoryRegionFree 0x1000
          ⟨List.replicate D 0xFFFFFFFF, initialMaxBlocks 0x1000 mem_info,
            initialMaxBlocks 0x1000 mem_info⟩ scenarioRegion.base scenarioRegion.length
            = some s1 := hs1
      have htype : scenarioRegion.type = 1 := rfl
      unfold walkMemoryMap
      rw [if_pos htype, hfree]
      rfl
    rw [hwalk]
    exact hs2
  · intro i
    rw [hbits2 i, hbits1 i, bit_test_replicate]
    by_cases hi : i < D * 32
    · by_cases h0 : i < 256
      · have hn : ¬ (256 ≤ i ∧ i < 272) := by omega
        have h0' : 0 ≤ i ∧ i < 0 + 256 := by omega
        rw [if_pos h0']; simp [hi, hn]
      · have h0' : ¬ (0 ≤ i ∧ i < 0 + 256) := by omega
        rw [if_neg h0']
        by_cases h1 : 256 ≤ i ∧ i < 256 + 16
        · have hn : 256 ≤ i ∧ i < 272 := by omega
          rw [if_pos h1]; simp [hi, hn]
        · have hn : ¬ (256 ≤ i ∧ i < 272) := by omega
          rw [if_neg h1]; simp [hi, hn]
    · have h0 : ¬ (0 ≤ i ∧ i < 0 + 256) := by omega
      have h1 : ¬ (256 ≤ i ∧ i < 256 + 16) := by omega
      rw [if_neg h0, if_neg h1, if_neg hi, if_neg hi]
  · rw [hmax2, hmax1]
  · rw [hused2, hused1]
    show ((initialMaxBlocks 0x1000 mem_info + (2 ^ 64 - 16)) % 2 ^ 64 + 256) % 2 ^ 64 = _
    omega

/-! ## Counting set bits -/

theorem filter_range_agree (p q : Nat → Bool) : ∀ (m : Nat), (∀ i, i < m → q i = p i) →
    ((List.range m).filter q).length = ((List.range m).filter p).length := by
  intro m
  induction m with
  | zero => intro _; rfl
  | succ m ih =>
    intro h
    rw [List.range_succ, List.filter_append, List.filter_append, List.length_append,
      List.length_append, ih (fun i hi => h i (by omega))]
    have hm : q m = p m := h m (by omega)
    simp [List.filter_cons, hm]

theorem filter_range_flip (p q : Nat → Bool) (n : Nat) (hpn : p n = false) (hqn : q n = true)
    (hother : ∀ i, i ≠ n → q i = p i) : ∀ (m : Nat), n < m →
    ((List.range m).filter q).length = ((List.range m).filter p).length + 1 := by
  intro m
  induction m with
  | zero => intro h; omega
  | succ m ih =>
    intro h
    rw [List.range_succ, List.filter_append, List.filter_append, List.length_append,
      List.length_append]
    by_cases hnm : n = m
    · subst hnm
      rw [filter_range_agree p q n (fun i hi => hother i (by omega))]
      simp [List.filter_cons, hpn, hqn]
    · rw [ih (by omega)]
      have hm : q m = p m := hother m (fun h' => hnm h'.symm)
      simp [List.filter_cons, hm]
      omega

theorem usedBitCount_le (s : AllocatorState) : usedBitCount s ≤ s.maxPhysicalBlocks := by
  unfold usedBitCount
  exact Nat.le_trans (List.length_filter_le _ _) (by rw [List.length_range])

/-- Setting one clear bit below `maxPhysicalBlocks` raises the count by one. -/
theorem usedBitCount_set {s s1 : AllocatorState} {n : Nat}
    (hmax : s1.maxPhysicalBlocks = s.maxPhysicalBlocks) (hn : n < s.maxPhysicalBlocks)
    (hbefore : bit_test s n = some false) (hafter : bit_test s1 n = some true)
    (hother : ∀ i, i ≠ n → bit_test s1 i = bit_test s i) :
    usedBitCount s1 = usedBitCount s + 1 := by
  unfold usedBitCount
  rw [hmax]
  apply filter_range_flip _ _ n _ _ _ _ hn
  · simp [hbefore]
  · simp [hafter]
  · intro i hi
    simp only [hother i hi]

/-- Clearing one set bit below `maxPhysicalBlocks` lowers the count by one. -/
theorem usedBitCount_clear {s s1 : AllocatorState} {n : Nat}
    (hmax : s1.maxPhysicalBlocks = s.maxPhysicalBlocks) (hn : n < s.maxPhysicalBlocks)
    (hbefore : bit_test s n = some true) (hafter : bit_test s1 n = some false)
    (hother : ∀ i, i ≠ n → bit_test s1 i = bit_test s i) :
    usedBitCount s = usedBitCount s1 + 1 := by
  unfold usedBitCount
  rw [hmax]
  apply filter_range_flip _ _ n _ _ _ _ hn
  · simp [hafter]
  · simp [hbefore]
  · intro i hi
    simp only [hother i hi]

/-! ## Single-block free -/

theorem free_eq_some (B : Nat) (s : AllocatorState) (addr : Nat)
    (hcap : addr / B < s.capacity) :
    ∃ sc, bit_clear s (addr / B) = some sc ∧
      FreePhysicalMemoryBlock B s addr =
        some { sc with usedPhysicalBlocks := (sc.usedPhysicalBlocks + (2 ^ 64 - 1)) % 2 ^ 64 } := by
  obtain ⟨sc, hsc⟩ := bit_clear_defined hcap
  refine ⟨sc, hsc, ?_⟩
  unfold FreePhysicalMemoryBlock
  rw [hsc]

/-- What `FreePhysicalMemoryBlock` does when the block index is inside the array. -/
theorem free_spec (B : Nat) (s : AllocatorState) (addr : Nat)
    (hcap : addr / B < s.capacity) :
    ∃ s1, FreePhysicalMemoryBlock B s addr = some s1 ∧
      bit_test s1 (addr / B) = some false ∧
      (∀ i, i ≠ addr / B → bit_test s1 i = bit_test s i) ∧
      (∀ i, bit_test s1 i = if i = addr / B then some false else bit_test s i) ∧
      s1.physicalMemoryBitmap.length = s.physicalMemoryBitmap.length ∧
      s1.maxPhysicalBlocks = s.maxPhysicalBlocks ∧
      s1.usedPhysicalBlocks = (s.usedPhysicalBlocks + (2 ^ 64 - 1)) % 2 ^ 64 ∧
      ((∀ w ∈ s.physicalMemoryBitmap, w < 2 ^ 32) →
        ∀ w ∈ s1.physicalMemoryBitmap, w < 2 ^ 32) := by
  obtain ⟨sc, hsc, hfree⟩ := free_eq_some B s addr hcap
  obtain ⟨hused, hmax, hlen, _, hwords⟩ := bit_clear_fields hsc
  have hbits := bit_test_bit_clear hsc
  refine ⟨_, hfree, ?_, ?_, ?_, hlen, hmax, ?_, hwords⟩
  · rw [bit_test_with_used, hbits, if_pos rfl]
  · intro i hi
    rw [bit_test_with_used, hbits, if_neg hi]
  · intro i
    rw [bit_test_with_used, hbits]
  · show (sc.usedPhysicalBlocks + (2 ^ 64 - 1)) % 2 ^ 64 = _
    rw [hused]

/-! ## The large-block free -/

theorem bit_clear_with_used (s : AllocatorState) (u i : Nat) :
    bit_clear { s with usedPhysicalBlocks := u } i =
      (bit_clear s i).map (fun t => { t with usedPhysicalBlocks := u }) := by
  unfold bit_clear
  dsimp only
  cases s.physicalMemoryBitmap[i >>> 5]? <;> rfl

/-- The loop of the large-block free performs the bit clears of the successive
single-block frees; only the counter is handled apart. -/
theorem freeLargeLoop_eq_freeSuccessive {B : Nat} (hB : 0 < B) :
    ∀ (n addr : Nat) (s : AllocatorState) (u : Nat), addr / B + n < 2 ^ 64 →
      freeLargeLoop n (addr / B) { s with usedPhysicalBlocks := u } =
        (freeSuccessive B n addr s).map (fun t => { t with usedPhysicalBlocks := u }) := by
  intro n
  induction n with
  | zero => intro addr s u _; rfl
  | succ n ih =>
    intro addr s u hlt
    have hmod : (addr / B + 1) % 2 ^ 64 = (addr + B) / B := by
      rw [Nat.add_div_right addr hB]
      exact Nat.mod_eq_of_lt (by omega)
    show (match bit_clear { s with usedPhysicalBlocks := u } (addr / B) with
      | none => none
      | some s1 => freeLargeLoop n ((addr / B + 1) % 2 ^ 64) s1) =
      (match FreePhysicalMemoryBlock B s addr with
      | none => none
      | some s1 => freeSuccessive B n (addr + B) s1).map _
    rw [bit_clear_with_used]
    unfold FreePhysicalMemoryBlock
    cases hc : bit_clear s (addr / B) with
    | none => rfl
    | some sc =>
      show freeLargeLoop n ((addr / B + 1) % 2 ^ 64) { sc with usedPhysicalBlocks := u } =
        (freeSuccessive B n (addr + B)
          { sc with usedPhysicalBlocks := (sc.usedPhysicalBlocks + (2 ^ 64 - 1)) % 2 ^ 64 }).map _
      rw [hmod]
      have hlt' : (addr + B) / B + n < 2 ^ 64 := by
        rw [Nat.add_div_right addr hB]; omega
      exact ih (addr + B)
        { sc with usedPhysicalBlocks := (sc.usedPhysicalBlocks + (2 ^ 64 - 1)) % 2 ^ 64 } u hlt'

theorem freeSuccessive_spec {B : Nat} (hB : 0 < B) : ∀ (n addr q : Nat) (s : AllocatorState),
    q = addr / B → q + n ≤ s.capacity → s.capacity < 2 ^ 32 → s.usedPhysicalBlocks < 2 ^ 64 →
    ∃ t, freeSuccessive B n addr s = some t ∧
      t.maxPhysicalBlocks = s.maxPhysicalBlocks ∧
      t.usedPhysicalBlocks = (s.usedPhysicalBlocks + (2 ^ 64 - n)) % 2 ^ 64 ∧
      t.physicalMemoryBitmap.length = s.physicalMemoryBitmap.length ∧
      (∀ i, bit_test t i = if q ≤ i ∧ i < q + n then some false else bit_test s i) := by
  intro n
  induction n with
  | zero =>
    intro addr q s _ _ _ hu
    refine ⟨s, rfl, rfl, by omega, rfl, ?_⟩
    intro i
    have : ¬ (q ≤ i ∧ i < q + 0) := by omega
    rw [if_neg this]
  | succ n ih =>
    intro addr q s hq hcap h32 hu
    obtain ⟨s1, h1, _, _, hbits1, hlen1, hmax1, hused1, _⟩ :=
      free_spec B s addr (by rw [← hq]; omega)
    have hnext : q + 1 = (addr + B) / B := by rw [Nat.add_div_right addr hB, hq]
    have hcap1 : s1.capacity = s.capacity := by
      unfold AllocatorState.capacity; rw [hlen1]
    obtain ⟨t, ht, hmax, hused, hlen, hbits⟩ := ih (addr + B) (q + 1) s1 hnext
      (by rw [hcap1]; omega) (by rw [hcap1]; exact h32)
      (by rw [hused1]; exact Nat.mod_lt _ (by decide))
    refine ⟨t, ?_, ?_, ?_, ?_, ?_⟩
    · show (match FreePhysicalMemoryBlock B s addr with
        | none => none
        | some s1 => freeSuccessive B n (addr + B) s1) = some t
      rw [h1]; exact ht
    · rw [hmax, hmax1]
    · rw [hused, hused1]
      have hn : n + 1 < 2 ^ 32 := by omega
      omega
    · rw [hlen, hlen1]
    · intro i
      rw [hbits i, hbits1 i, ← hq]
      by_cases h1 : q + 1 ≤ i ∧ i < q + 1 + n
      · have h2 : q ≤ i ∧ i < q + (n + 1) := by omega
        rw [if_pos h1, if_pos h2]
      · rw [if_neg h1]
        by_cases h3 : i = q
        · have h2 : q ≤ i ∧ i < q + (n + 1) := by omega
          rw [if_pos h3, if_pos h2]
        · have h2 : ¬ (q ≤ i ∧ i < q + (n + 1)) := by omega
          rw [if_neg h3, if_neg h2]

/-! ## The memory-map walk -/

theorem walkMemoryMap_takeWhile (B : Nat) : ∀ (map : List multiboot_memory_map_t)
    (s : AllocatorState),
    walkMemoryMap B (map.takeWhile (fun e => e.type != 0)) s = walkMemoryMap B map s := by
  intro map
  induction map with
  | nil => intro s; rfl
  | cons e rest ih =>
    intro s
    by_cases h1 : e.type = 1
    · have hne : (e.type != 0) = true := by rw [h1]; decide
      rw [List.takeWhile_cons_of_pos (p := fun e => e.type != 0) (a := e) hne]
      unfold walkMemoryMap
      rw [if_pos h1, if_pos h1]
      cases MarkMemoryRegionFree B s e.base e.length with
      | none => rfl
      | some s1 => exact ih s1
    · by_cases h0 : e.type = 0
      · have hne : ¬ (e.type != 0) = true := by rw [h0]; decide
        rw [List.takeWhile_cons_of_neg (p := fun e => e.type != 0) (a := e) hne]
        unfold walkMemoryMap
        rw [if_neg h1, if_pos h0]
      · have hne : (e.type != 0) = true := by simpa using h0
        rw [List.takeWhile_cons_of_pos (p := fun e => e.type != 0) (a := e) hne]
        unfold walkMemoryMap
        rw [if_neg h1, if_neg h0, if_neg h1, if_neg h0]
        exact ih s

theorem walkMemoryMap_filter (B : Nat) : ∀ (map : List multiboot_memory_map_t)
    (s : AllocatorState),
    walkMemoryMap B (map.filter (fun e => e.type == 0 || e.type == 1)) s
      = walkMemoryMap B map s := by
  intro map
  induction map with
  | nil => intro s; rfl
  | cons e rest ih =>
    intro s
    by_cases h1 : e.type = 1
    · have hk : (e.type == 0 || e.type == 1) = true := by rw [h1]; decide
      rw [List.filter_cons_of_pos (p := fun e => e.type == 0 || e.type == 1) (a := e) hk]
      unfold walkMemoryMap
      rw [if_pos h1, if_pos h1]
      cases MarkMemoryRegionFree B s e.base e.length with
      | none => rfl
      | some s1 => exact ih s1
    · by_cases h0 : e.type = 0
      · have hk : (e.type == 0 || e.type == 1) = true := by rw [h0]; decide
        rw [List.filter_cons_of_pos (p := fun e => e.type == 0 || e.type == 1) (a := e) hk]
        unfold walkMemoryMap
        rw [if_neg h1, if_pos h0, if_neg h1, if_pos h0]
      · have hk : ¬ (e.type == 0 || e.type == 1) = true := by simp [h0, h1]
        rw [List.filter_cons_of_neg (p := fun e => e.type == 0 || e.type == 1) (a := e) hk]
        conv => rhs; unfold walkMemoryMap
        rw [if_neg h1, if_neg h0]
        exact ih s

theorem walkMemoryMap_filter_usable (B : Nat) : ∀ (map : List multiboot_memory_map_t)
    (s : AllocatorState), (∀ e ∈ map, e.type ≠ 0) →
    walkMemoryMap B (map.filter (fun e => e.type == 1)) s = walkMemoryMap B map s := by
  intro map
  induction map with
  | nil => intro s _; rfl
  | cons e rest ih =>
    intro s hno
    have hrest : ∀ e ∈ rest, e.type ≠ 0 := fun x hx => hno x (List.mem_cons_of_mem _ hx)
    have h0 : e.type ≠ 0 := hno e (List.mem_cons_self _ _)
    by_cases h1 : e.type = 1
    · have hk : (e.type == 1) = true := by rw [h1]; decide
      rw [List.filter_cons_of_pos (p := fun e => e.type == 1) (a := e) hk]
      unfold walkMemoryMap
      rw [if_pos h1, if_pos h1]
      cases MarkMemoryRegionFree B s e.base e.length with
      | none => rfl
      | some s1 => exact ih s1 hrest
    · have hk : ¬ (e.type == 1) = true := by simp [h1]
      rw [List.filter_cons_of_neg (p := fun e => e.type == 1) (a := e) hk]
      conv => rhs; unfold walkMemoryMap
      rw [if_neg h1, if_neg h0]
      exact ih s hrest

theorem init_congr_walk (B D : Nat) (mem_info : memory_info_t) (kernel_end : Nat)
    (map : List multiboot_memory_map_t)
    (h : ∀ s, walkMemoryMap B map s = walkMemoryMap B mem_info.mem_map s) :
    InitializePhysicalAllocator B D { mem_info with mem_map := map } kernel_end
      = InitializePhysicalAllocator B D mem_info kernel_end := by
  unfold InitializePhysicalAllocator
  show (match walkMemoryMap B map
      ⟨List.replicate D 0xFFFFFFFF, initialMaxBlocks B mem_info, initialMaxBlocks B mem_info⟩ with
    | none => none
    | some s1 => MarkMemoryRegionUsed B s1 0 kernel_end) = _
  rw [h]

/-! ## The region primitives as a whole -/

theorem wellTyped_of_fields {s t : AllocatorState} (hs : s.WellTyped)
    (hmax : t.maxPhysicalBlocks = s.maxPhysicalBlocks)
    (hused : t.usedPhysicalBlocks < 2 ^ 64)
    (hlen : t.physicalMemoryBitmap.length = s.physicalMemoryBitmap.length)
    (hwords : (∀ w ∈ s.physicalMemoryBitmap, w < 2 ^ 32) →
      ∀ w ∈ t.physicalMemoryBitmap, w < 2 ^ 32) : t.WellTyped := by
  obtain ⟨h1, _, h3, h4⟩ := hs
  refine ⟨hwords h1, hused, ?_, ?_⟩
  · rw [hmax]; exact h3
  · rw [hlen]; exact h4

/-- `MarkMemoryRegionFree` on a block range inside the bitmap. -/
theorem markMemoryRegionFree_spec (B : Nat) (s : AllocatorState) (base size : Nat)
    (hB : ValidBlockSize B) (hs : s.WellTyped)
    (hfit : base / B + (size + B - 1) / B ≤ s.capacity) :
    ∃ s2, MarkMemoryRegionFree B s base size = some s2 ∧
      (∀ i, bit_test s2 i =
        if base / B ≤ i ∧ i < base / B + (size + B - 1) / B then some false
        else bit_test s i) ∧
      s2.usedPhysicalBlocks = (s.usedPhysicalBlocks + (2 ^ 64 - (size + B - 1) / B)) % 2 ^ 64 ∧
      s2.maxPhysicalBlocks = s.maxPhysicalBlocks ∧
      s2.capacity = s.capacity ∧
      s2.WellTyped := by
  have h32 : s.capacity < 2 ^ 32 := hs.2.2.2
  have hu : s.usedPhysicalBlocks < 2 ^ 64 := hs.2.1
  have hpos : 0 < B := hB.1
  have hc : (size + B - 1) / B < 2 ^ 32 :=
    Nat.lt_of_le_of_lt (Nat.le_trans (Nat.le_add_left _ _) hfit) h32
  have hsum : size + B - 1 < 2 ^ 32 * B := (Nat.div_lt_iff_lt_mul hpos).mp hc
  have hmul : 2 ^ 32 * B ≤ 2 ^ 32 * 2 ^ 31 := Nat.mul_le_mul_left _ (Nat.le_of_lt hB.2)
  have hpow : (2 : Nat) ^ 32 * 2 ^ 31 < 2 ^ 64 := by norm_num
  have hrew : size + (B - 1) = size + B - 1 := by omega
  obtain ⟨s2, h2, hmax, hused, hlen, hbits, hwords⟩ :=
    markFreeLoop_spec ((size + B - 1) / B) (base / B) s hfit h32 hu
  refine ⟨s2, ?_, hbits, hused, hmax, ?_, ?_⟩
  · unfold MarkMemoryRegionFree
    rw [hrew, Nat.mod_eq_of_lt (show size + B - 1 < 2 ^ 64 by omega),
      Nat.mod_eq_of_lt hc,
      Nat.mod_eq_of_lt (Nat.lt_of_le_of_lt (Nat.le_trans (Nat.le_add_right _ _) hfit) h32)]
    exact h2
  · unfold AllocatorState.capacity; rw [hlen]
  · exact wellTyped_of_fields hs hmax (by rw [hused]; exact Nat.mod_lt _ (by decide)) hlen hwords

/-- A block of `[base / B, base / B + ⌈size / B⌉)` has a byte in
`[base, base + size)`. -/
theorem block_meets_range {B base size i : Nat} (hB : 0 < B)
    (h1 : base / B ≤ i) (h2 : i < base / B + (size + B - 1) / B) :
    i * B < base + size ∧ base < (i + 1) * B := by
  have hq : base / B * B ≤ base := Nat.div_mul_le_self base B
  have hq2 : base < (base / B + 1) * B := by
    have hdm : B * (base / B) + base % B = base := Nat.div_add_mod base B
    have hml : base % B < B := Nat.mod_lt _ hB
    rw [Nat.mul_comm] at hdm
    rw [Nat.add_mul, Nat.one_mul]
    generalize base / B * B = qB at hdm
    omega
  have hc : (size + B - 1) / B * B ≤ size + B - 1 := Nat.div_mul_le_self _ B
  have hi1 : (i + 1) * B ≤ (base / B + (size + B - 1) / B) * B :=
    Nat.mul_le_mul_right B h2
  have hi2 : (base / B + 1) * B ≤ (i + 1) * B := Nat.mul_le_mul_right B (by omega)
  rw [Nat.add_mul (base / B) _ B, Nat.add_mul i 1 B, Nat.one_mul] at hi1
  constructor
  · generalize base / B * B = qB at hq hi1
    generalize (size + B - 1) / B * B = cB at hc hi1
    generalize i * B = iB at hi1
    omega
  · exact Nat.lt_of_lt_of_le hq2 hi2

/-- With an aligned base and a size that is a multiple of the block size, a
block of the freed range lies inside `[base, base + size)`. -/
theorem block_inside_aligned_range {B base size i : Nat} (hB : 0 < B)
    (hbase : B ∣ base) (hsize : B ∣ size)
    (h1 : base / B ≤ i) (h2 : i < base / B + (size + B - 1) / B) :
    base ≤ i * B ∧ (i + 1) * B ≤ base + size := by
  have hq : base / B * B = base := Nat.div_mul_cancel hbase
  obtain ⟨m, hm⟩ := hsize
  have hc : (size + B - 1) / B = m := by
    rw [hm, Nat.add_sub_assoc hB, Nat.mul_add_div hB, Nat.div_eq_of_lt (by omega)]
    rfl
  rw [hc] at h2
  have hi1 : (i + 1) * B ≤ (base / B + m) * B := Nat.mul_le_mul_right B h2
  have hi2 : base / B * B ≤ i * B := Nat.mul_le_mul_right B h1
  rw [Nat.add_mul (base / B) m B, hq] at hi1
  rw [hq] at hi2
  have hmB : m * B = size := by rw [hm, Nat.mul_comm]
  rw [hmB] at hi1
  exact ⟨hi2, hi1⟩

/-! ## Initialisation: bits beyond `maxPhysicalBlocks`, and order of the entries -/

theorem markUsedLoop_mono : ∀ (n a : Nat) (s s1 : AllocatorState),
    markUsedLoop n a s = some s1 →
      s1.maxPhysicalBlocks = s.maxPhysicalBlocks ∧
      s1.physicalMemoryBitmap.length = s.physicalMemoryBitmap.length ∧
      (∀ i, bit_test s i = some true → bit_test s1 i = some true) := by
  intro n
  induction n with
  | zero =>
    intro a s s1 h
    have : s = s1 := Option.some.inj h
    subst this
    exact ⟨rfl, rfl, fun _ h => h⟩
  | succ n ih =>
    intro a s s1 h
    change (match bit_set s a with
      | none => none
      | some sb => markUsedLoop n ((a + 1) % 2 ^ 32)
          { sb with usedPhysicalBlocks := (sb.usedPhysicalBlocks + 1) % 2 ^ 64 }) = some s1 at h
    cases hb : bit_set s a with
    | none => rw [hb] at h; exact Option.noConfusion h
    | some sb =>
      rw [hb] at h
      obtain ⟨_, hmaxb, hlenb, _, _⟩ := bit_set_fields hb
      have hbits := bit_test_bit_set hb
      obtain ⟨hmax, hlen, hmono⟩ := ih _ _ _ h
      refine ⟨hmax.trans hmaxb, hlen.trans hlenb, ?_⟩
      intro i hi
      apply hmono
      rw [bit_test_with_used, hbits i]
      by_cases hia : i = a
      · rw [if_pos hia]
      · rw [if_neg hia]; exact hi

theorem initial_state_wellTyped (B D : Nat) (mem_info : memory_info_t)
    (hD : D * 32 < 2 ^ 32) :
    AllocatorState.WellTyped ⟨List.replicate D 0xFFFFFFFF, initialMaxBlocks B mem_info,
      initialMaxBlocks B mem_info⟩ := by
  have hmaxlt : initialMaxBlocks B mem_info < 2 ^ 64 := by
    unfold initialMaxBlocks
    exact Nat.lt_of_le_of_lt (Nat.div_le_self _ _) (Nat.mod_lt _ (by decide))
  refine ⟨?_, hmaxlt, hmaxlt, ?_⟩
  · intro w hw
    have : w = 0xFFFFFFFF := List.eq_of_mem_replicate hw
    rw [this]; decide
  · show (List.replicate D 0xFFFFFFFF).length * 32 < 2 ^ 32
    rw [List.length_replicate]; exact hD

/-- The walk keeps every bit at or above `M` set when the usable entries lie
below block `M`. -/
theorem walkMemoryMap_keeps_high_bits (B M : Nat) (hB : ValidBlockSize B) :
    ∀ (map : List multiboot_memory_map_t) (s s1 : AllocatorState),
      s.WellTyped → M ≤ s.capacity →
      (∀ e ∈ map, e.type = 1 → e.base / B + (e.length + B - 1) / B ≤ M) →
      (∀ i, M ≤ i → i < s.capacity → bit_test s i = some true) →
      walkMemoryMap B map s = some s1 →
        s1.maxPhysicalBlocks = s.maxPhysicalBlocks ∧ s1.capacity = s.capacity ∧
        (∀ i, M ≤ i → i < s.capacity → bit_test s1 i = some true) := by
  intro map
  induction map with
  | nil =>
    intro s s1 _ _ _ hhigh h
    have : s = s1 := Option.some.inj h
    subst this
    exact ⟨rfl, rfl, hhigh⟩
  | cons e rest ih =>
    intro s s1 hs hM hin hhigh h
    have hrest : ∀ x ∈ rest, x.type = 1 → x.base / B + (x.length + B - 1) / B ≤ M :=
      fun x hx => hin x (List.mem_cons_of_mem _ hx)
    unfold walkMemoryMap at h
    by_cases h1 : e.type = 1
    · rw [if_pos h1] at h
      have hfit := hin e (List.mem_cons_self _ _) h1
      obtain ⟨s2, h2, hbits, _, hmax2, hcap2, hwt2⟩ :=
        markMemoryRegionFree_spec B s e.base e.length hB hs (Nat.le_trans hfit hM)
      rw [h2] at h
      have hhigh2 : ∀ i, M ≤ i → i < s2.capacity → bit_test s2 i = some true := by
        intro i hi1 hi2
        rw [hbits i]
        have hout : ¬ (e.base / B ≤ i ∧ i < e.base / B + (e.length + B - 1) / B) := by
          intro hcon
          exact absurd (Nat.lt_of_lt_of_le hcon.2 hfit) (Nat.not_lt.mpr hi1)
        rw [if_neg hout]
        exact hhigh i hi1 (by rw [← hcap2]; exact hi2)
      obtain ⟨hmax, hcap, hres⟩ := ih s2 s1 hwt2 (by rw [hcap2]; exact hM) hrest hhigh2 h
      refine ⟨hmax.trans hmax2, hcap.trans hcap2, ?_⟩
      intro i hi1 hi2
      exact hres i hi1 (by rw [hcap2]; exact hi2)
    · rw [if_neg h1] at h
      by_cases h0 : e.type = 0
      · rw [if_pos h0] at h
        have : s = s1 := Option.some.inj h
        subst this
        exact ⟨rfl, rfl, hhigh⟩
      · rw [if_neg h0] at h
        exact ih s s1 hs hM hrest hhigh h

theorem bit_clear_none {s : AllocatorState} {b : Nat} (hb : s.capacity ≤ b) :
    bit_clear s b = none := by
  cases h : bit_clear s b with
  | none => rfl
  | some s1 =>
    obtain ⟨_, _, _, hlt, _⟩ := bit_clear_fields h
    omega

theorem markFreeLoop_none : ∀ (n a : Nat) (s : AllocatorState),
    s.capacity < 2 ^ 32 → 0 < n → s.capacity < a + n → markFreeLoop n a s = none := by
  intro n
  induction n with
  | zero => intro a s _ h _; omega
  | succ n ih =>
    intro a s h32 _ hover
    show (match bit_clear s a with
      | none => none
      | some s1 => markFreeLoop n ((a + 1) % 2 ^ 32)
          { s1 with usedPhysicalBlocks :=
              (s1.usedPhysicalBlocks + (2 ^ 64 - 1)) % 2 ^ 64 }) = none
    by_cases ha : s.capacity ≤ a
    · rw [bit_clear_none ha]
    · obtain ⟨s1, hs1⟩ := bit_clear_defined (s := s) (b := a) (by omega)
      obtain ⟨_, _, hlen, _, _⟩ := bit_clear_fields hs1
      rw [hs1]
      show markFreeLoop n ((a + 1) % 2 ^ 32) _ = none
      rw [Nat.mod_eq_of_lt (show a + 1 < 2 ^ 32 by omega)]
      apply ih
      · show s1.physicalMemoryBitmap.length * 32 < 2 ^ 32
        rw [hlen]; exact h32
      · omega
      · show s1.physicalMemoryBitmap.length * 32 < a + 1 + n
        rw [hlen]
        unfold AllocatorState.capacity at hover
        omega

/-- The free loop on a range that fits, the empty range included. -/
theorem markFreeLoop_fit (n a : Nat) (s : AllocatorState) (hs : s.WellTyped)
    (hfit : n = 0 ∨ a + n ≤ s.capacity) :
    ∃ s1, markFreeLoop n a s = some s1 ∧ s1.WellTyped ∧
      s1.capacity = s.capacity ∧
      s1.maxPhysicalBlocks = s.maxPhysicalBlocks ∧
      s1.usedPhysicalBlocks = (s.usedPhysicalBlocks + (2 ^ 64 - n)) % 2 ^ 64 ∧
      (∀ i, bit_test s1 i = if a ≤ i ∧ i < a + n then some false else bit_test s i) := by
  have h32 : s.capacity < 2 ^ 32 := hs.2.2.2
  have hu : s.usedPhysicalBlocks < 2 ^ 64 := hs.2.1
  by_cases hn : n = 0
  · subst hn
    refine ⟨s, rfl, hs, rfl, rfl, by omega, ?_⟩
    intro i
    have : ¬ (a ≤ i ∧ i < a + 0) := by omega
    rw [if_neg this]
  · have hle : a + n ≤ s.capacity := by
      rcases hfit with h | h
      · exact absurd h hn
      · exact h
    obtain ⟨s1, h1, hmax, hused, hlen, hbits, hwords⟩ := markFreeLoop_spec n a s hle h32 hu
    refine ⟨s1, h1, ?_, ?_, hmax, hused, hbits⟩
    · exact wellTyped_of_fields hs hmax (by rw [hused]; exact Nat.mod_lt _ (by decide))
        hlen hwords
    · unfold AllocatorState.capacity; rw [hlen]

/-- Two well-typed states with the same bits and counters are equal. -/
theorem state_ext {s t : AllocatorState} (hs : s.WellTyped) (ht : t.WellTyped)
    (hcap : s.capacity = t.capacity)
    (hbits : ∀ i, bit_test s i = bit_test t i)
    (hused : s.usedPhysicalBlocks = t.usedPhysicalBlocks)
    (hmax : s.maxPhysicalBlocks = t.maxPhysicalBlocks) : s = t := by
  have hlen : s.physicalMemoryBitmap.length = t.physicalMemoryBitmap.length := by
    unfold AllocatorState.capacity at hcap; omega
  have hbm : s.physicalMemoryBitmap = t.physicalMemoryBitmap := by
    apply List.ext_getElem?
    intro k
    by_cases hk : k < s.physicalMemoryBitmap.length
    · have hk' : k < t.physicalMemoryBitmap.length := by omega
      have hws : s.physicalMemoryBitmap[k]? = some s.physicalMemoryBitmap[k] :=
        List.getElem?_eq_getElem hk
      have hwt : t.physicalMemoryBitmap[k]? = some t.physicalMemoryBitmap[k] :=
        List.getElem?_eq_getElem hk'
      rw [hws, hwt]
      congr 1
      apply Nat.eq_of_testBit_eq
      intro j
      by_cases hj : j < 32
      · have h1 := bit_test_of_word hws j hj
        have h2 := bit_test_of_word hwt j hj
        rw [hbits, h2] at h1
        exact (Option.some.inj h1).symm
      · have hs1 : s.physicalMemoryBitmap[k] < 2 ^ 32 :=
          hs.1 _ (List.mem_iff_getElem?.mpr ⟨_, hws⟩)
        have ht1 : t.physicalMemoryBitmap[k] < 2 ^ 32 :=
          ht.1 _ (List.mem_iff_getElem?.mpr ⟨_, hwt⟩)
        rw [testBit_eq_false_of_lt hs1 (by omega), testBit_eq_false_of_lt ht1 (by omega)]
    · rw [List.getElem?_eq_none (by omega), List.getElem?_eq_none (by omega)]
  cases s with
  | mk b1 u1 m1 =>
    cases t with
    | mk b2 u2 m2 =>
      simp only [AllocatorState.mk.injEq]
      exact ⟨hbm, hused, hmax⟩

/-- Two free loops commute, as partial functions on well-typed states. -/
theorem markFreeLoop_comm (n1 a1 n2 a2 : Nat) (s : AllocatorState) (hs : s.WellTyped) :
    (markFreeLoop n1 a1 s).bind (markFreeLoop n2 a2) =
      (markFreeLoop n2 a2 s).bind (markFreeLoop n1 a1) := by
  have h32 : s.capacity < 2 ^ 32 := hs.2.2.2
  by_cases hf1 : n1 = 0 ∨ a1 + n1 ≤ s.capacity
  · obtain ⟨s1, h1, hwt1, hcap1, hmax1, hused1, hbits1⟩ := markFreeLoop_fit n1 a1 s hs hf1
    by_cases hf2 : n2 = 0 ∨ a2 + n2 ≤ s.capacity
    · obtain ⟨s2, h2, hwt2, hcap2, hmax2, hused2, hbits2⟩ := markFreeLoop_fit n2 a2 s hs hf2
      obtain ⟨s12, h12, hwt12, hcap12, hmax12, hused12, hbits12⟩ :=
        markFreeLoop_fit n2 a2 s1 hwt1 (by rw [hcap1]; exact hf2)
      obtain ⟨s21, h21, hwt21, hcap21, hmax21, hused21, hbits21⟩ :=
        markFreeLoop_fit n1 a1 s2 hwt2 (by rw [hcap2]; exact hf1)
      rw [h1, h2]
      show markFreeLoop n2 a2 s1 = markFreeLoop n1 a1 s2
      rw [h12, h21]
      congr 1
      apply state_ext hwt12 hwt21
      · rw [hcap12, hcap1, hcap21, hcap2]
      · intro i
        rw [hbits12 i, hbits1 i, hbits21 i, hbits2 i]
        by_cases c1 : a1 ≤ i ∧ i < a1 + n1 <;> by_cases c2 : a2 ≤ i ∧ i < a2 + n2 <;>
          simp [c1, c2]
      · rw [hused12, hused1, hused21, hused2]
        have hu := hs.2.1
        omega
      · rw [hmax12, hmax1, hmax21, hmax2]
    · have hnone : markFreeLoop n2 a2 s = none :=
        markFreeLoop_none n2 a2 s h32 (by omega) (by omega)
      have hnone1 : markFreeLoop n2 a2 s1 = none :=
        markFreeLoop_none n2 a2 s1 (by rw [hcap1]; exact h32) (by omega)
          (by rw [hcap1]; omega)
      rw [h1, hnone]
      show markFreeLoop n2 a2 s1 = none
      exact hnone1
  · have hnone : markFreeLoop n1 a1 s = none :=
      markFreeLoop_none n1 a1 s h32 (by omega) (by omega)
    rw [hnone]
    show none = _
    cases h2 : markFreeLoop n2 a2 s with
    | none => rfl
    | some s2 =>
      show none = markFreeLoop n1 a1 s2
      by_cases hf2 : n2 = 0 ∨ a2 + n2 ≤ s.capacity
      · obtain ⟨s2', h2', _, hcap2, _⟩ := markFreeLoop_fit n2 a2 s hs hf2
        have : s2' = s2 := Option.some.inj (h2'.symm.trans h2)
        subst this
        exact (markFreeLoop_none n1 a1 s2' (by rw [hcap2]; exact h32) (by omega)
          (by rw [hcap2]; omega)).symm
      · have := markFreeLoop_none n2 a2 s h32 (by omega) (by omega)
        rw [this] at h2
        exact Option.noConfusion h2

theorem markMemoryRegionFree_wellTyped {B : Nat} {s s1 : AllocatorState} {base size : Nat}
    (hs : s.WellTyped) (h : MarkMemoryRegionFree B s base size = some s1) : s1.WellTyped := by
  unfold MarkMemoryRegionFree at h
  have h32 : s.capacity < 2 ^ 32 := hs.2.2.2
  by_cases hf : (((size + (B - 1)) % 2 ^ 64) / B) % 2 ^ 32 = 0 ∨
      (base / B) % 2 ^ 32 + (((size + (B - 1)) % 2 ^ 64) / B) % 2 ^ 32 ≤ s.capacity
  · obtain ⟨s2, h2, hwt, _⟩ := markFreeLoop_fit _ _ s hs hf
    have : s2 = s1 := Option.some.inj (h2.symm.trans h)
    rw [← this]; exact hwt
  · have hnone := markFreeLoop_none ((((size + (B - 1)) % 2 ^ 64) / B) % 2 ^ 32)
      ((base / B) % 2 ^ 32) s h32 (by omega) (by omega)
    rw [hnone] at h
    exact Option.noConfusion h

theorem walkMemoryMap_cons_usable (B : Nat) (e : multiboot_memory_map_t)
    (rest : List multiboot_memory_map_t) (s : AllocatorState) (h1 : e.type = 1) :
    walkMemoryMap B (e :: rest) s =
      (MarkMemoryRegionFree B s e.base e.length).bind (walkMemoryMap B rest) := by
  conv => lhs; unfold walkMemoryMap
  rw [if_pos h1]
  cases MarkMemoryRegionFree B s e.base e.length <;> rfl

/-- The walk over usable entries does not depend on their order. -/
theorem walkMemoryMap_perm (B : Nat) {l1 l2 : List multiboot_memory_map_t}
    (hperm : l1.Perm l2) : (∀ e ∈ l1, e.type = 1) → ∀ (s : AllocatorState), s.WellTyped →
    walkMemoryMap B l1 s = walkMemoryMap B l2 s := by
  induction hperm with
  | nil => intro _ s _; rfl
  | cons x _ ih =>
    intro htype s hs
    have hx : x.type = 1 := htype x (List.mem_cons_self _ _)
    rw [walkMemoryMap_cons_usable B x _ s hx, walkMemoryMap_cons_usable B x _ s hx]
    cases h : MarkMemoryRegionFree B s x.base x.length with
    | none => rfl
    | some s1 =>
      show walkMemoryMap B _ s1 = walkMemoryMap B _ s1
      exact ih (fun e he => htype e (List.mem_cons_of_mem _ he)) s1
        (markMemoryRegionFree_wellTyped hs h)
  | swap x y l =>
    intro htype s hs
    have hy : y.type = 1 := htype y (List.mem_cons_self _ _)
    have hx : x.type = 1 := htype x (List.mem_cons_of_mem _ (List.mem_cons_self _ _))
    rw [walkMemoryMap_cons_usable B y _ s hy, walkMemoryMap_cons_usable B x _ s hx]
    have e1 : (MarkMemoryRegionFree B s y.base y.length).bind (walkMemoryMap B (x :: l)) =
        ((MarkMemoryRegionFree B s y.base y.length).bind
          (fun t => MarkMemoryRegionFree B t x.base x.length)).bind (walkMemoryMap B l) := by
      rw [Option.bind_assoc]
      congr 1
      funext t
      exact walkMemoryMap_cons_usable B x l t hx
    have e2 : (MarkMemoryRegionFree B s x.base x.length).bind (walkMemoryMap B (y :: l)) =
        ((MarkMemoryRegionFree B s x.base x.length).bind
          (fun t => MarkMemoryRegionFree B t y.base y.length)).bind (walkMemoryMap B l) := by
      rw [Option.bind_assoc]
      congr 1
      funext t
      exact walkMemoryMap_cons_usable B y l t hy
    rw [e1, e2]
    congr 1
    exact markFreeLoop_comm _ _ _ _ s hs
  | trans h1 _ ih1 ih2 =>
    intro htype s hs
    rw [ih1 htype s hs]
    exact ih2 (fun e he => htype e (h1.mem_iff.mpr he)) s hs

/-! ## The state-passing scan -/

theorem scanWordSt_eq {s : AllocatorState} {i w : Nat}
    (hw : s.physicalMemoryBitmap[i]? = some w) :
    ∀ (k j : Nat), scanWordSt i k j s = some (scanWord w i k j, s) := by
  intro k
  induction k with
  | zero => intro j; rfl
  | succ k ih =>
    intro j
    unfold scanWordSt scanWord readBitmapWord
    rw [hw]
    simp only
    by_cases hc : ((w &&& (1 <<< j)) == 0 && (i != 0 || j != 0)) = true
    · rw [if_pos hc, if_pos hc]
    · rw [if_neg hc, if_neg hc]
      exact ih (j + 1)

/-- With the fuel that the loop needs, the state-passing scan returns what the
scan returns, and the state it was given. -/
theorem scanFromSt_eq (s : AllocatorState) : ∀ (n i : Nat),
    i + n = s.maxPhysicalBlocks / 32 →
    scanFromSt (n + 1) i s = (scanFrom s.physicalMemoryBitmap n i).map (fun r => (r, s)) := by
  intro n
  induction n with
  | zero =>
    intro i hi
    unfold scanFromSt scanFrom readMaxPhysicalBlocks
    simp only
    rw [if_neg (by omega)]
    rfl
  | succ n ih =>
    intro i hi
    rw [scanFrom_succ]
    unfold scanFromSt readMaxPhysicalBlocks
    simp only
    rw [if_pos (show i < s.maxPhysicalBlocks / 32 by omega)]
    by_cases h32 : i < 2 ^ 32
    · rw [if_pos h32, if_pos h32]
      unfold readBitmapWord
      cases hw : s.physicalMemoryBitmap[i]? with
      | none => rfl
      | some w =>
        simp only
        by_cases hfull : (w != 0xffffffff) = true
        · rw [if_pos hfull, if_pos hfull, scanWordSt_eq hw]
          cases hs : scanWord w i 32 0 with
          | none => exact ih (i + 1) (by omega)
          | some r => rfl
        · rw [if_neg hfull, if_neg hfull]
          exact ih (i + 1) (by omega)
    · rw [if_neg h32, if_neg h32]
      rfl

theorem getFirstFreeSt_eq (s : AllocatorState) :
    GetFirstFreeMemoryBlockSt s = (GetFirstFreeMemoryBlock s).map (fun r => (r, s)) := by
  unfold GetFirstFreeMemoryBlockSt GetFirstFreeMemoryBlock
  exact scanFromSt_eq s _ 0 (by omega)

/-! ## The bitmap after initialisation -/

/-- When the computed `(memory_high + memory_low) * 1024 / B` is
at most the bitmap capacity and every usable entry of the map lies below that
many blocks, then after the initialisation `maxPhysicalBlocks` is that value,
it is within the capacity, and every bit of the array at an index
`>= maxPhysicalBlocks` is still set. -/
theorem init_in_range_map_leaves_high_bits_set (B D : Nat) (mem_info : memory_info_t)
    (kernel_end : Nat) (s : AllocatorState)
    (hB : ValidBlockSize B) (hD : D * 32 < 2 ^ 32)
    (hmax : initialMaxBlocks B mem_info ≤ D * 32)
    (hin : ∀ e ∈ mem_info.mem_map, e.type = 1 →
      e.base / B + e.length ⌈/⌉ B ≤ initialMaxBlocks B mem_info)
    (h : InitializePhysicalAllocator B D mem_info kernel_end = some s) :
    s.maxPhysicalBlocks = initialMaxBlocks B mem_info ∧
    s.maxPhysicalBlocks ≤ s.capacity ∧
    s.capacity = D * 32 ∧
    (∀ i, s.maxPhysicalBlocks ≤ i → i < s.capacity → bit_test s i = some true) := by
  have hwt := initial_state_wellTyped B D mem_info hD
  have hcap0 : (⟨List.replicate D 0xFFFFFFFF, initialMaxBlocks B mem_info,
      initialMaxBlocks B mem_info⟩ : AllocatorState).capacity = D * 32 := by
    unfold AllocatorState.capacity; simp
  unfold InitializePhysicalAllocator at h
  change (match walkMemoryMap B mem_info.mem_map
      ⟨List.replicate D 0xFFFFFFFF, initialMaxBlocks B mem_info, initialMaxBlocks B mem_info⟩ with
    | none => none
    | some s1 => MarkMemoryRegionUsed B s1 0 kernel_end) = some s at h
  cases hw : walkMemoryMap B mem_info.mem_map
      ⟨List.replicate D 0xFFFFFFFF, initialMaxBlocks B mem_info, initialMaxBlocks B mem_info⟩ with
  | none => rw [hw] at h; exact Option.noConfusion h
  | some s1 =>
    rw [hw] at h
    obtain ⟨hmax1, hcap1, hhigh1⟩ := walkMemoryMap_keeps_high_bits B
      (initialMaxBlocks B mem_info) hB mem_info.mem_map _ s1 hwt
      (by rw [hcap0]; exact hmax) hin
      (by
        intro i _ hi
        rw [hcap0] at hi
        rw [bit_test_replicate, if_pos hi])
      hw
    obtain ⟨hmax2, hlen2, hmono⟩ := markUsedLoop_mono _ _ _ _ h
    have hcap2 : s.capacity = D * 32 := by
      rw [← hcap0, ← hcap1]
      unfold AllocatorState.capacity
      rw [hlen2]
    have hm : s.maxPhysicalBlocks = initialMaxBlocks B mem_info := by
      rw [hmax2, hmax1]
    refine ⟨hm, by rw [hm, hcap2]; exact hmax, hcap2, ?_⟩
    intro i hi1 hi2
    apply hmono
    apply hhigh1 i (by rw [← hm]; exact hi1)
    rw [hcap0, ← hcap2]; exact hi2

/-! ## The claims of the specification -/

/-- C1 fails on the code. Initialising a 288-block machine (block size
0x1000) with the single usable region `[0x100000, 0x110000)` and a kernel image
ending at 0x100000 leaves 272 set bits in `[0, maxPhysicalBlocks)`, yet
`usedPhysicalBlocks` is 528: re-marking the kernel image counts 256 blocks
that were already counted as used. -/
theorem C1_counter_drifts_from_bitmap_at_init :
    InitializePhysicalAllocator 0x1000 9 (scenarioInfo 1152) 0x100000
      = some ⟨List.replicate 8 0xFFFFFFFF ++ [0xFFFF0000], 528, 288⟩ ∧
    AllocatorState.capacity ⟨List.replicate 8 0xFFFFFFFF ++ [0xFFFF0000], 528, 288⟩ = 288 ∧
    usedBitCount ⟨List.replicate 8 0xFFFFFFFF ++ [0xFFFF0000], 528, 288⟩ = 272 := by
  decide

/-- C2. From every state, a returning `AllocatePhysicalMemoryBlock` returns
`index * PHYSALLOC_BLOCK_SIZE` for the index that the scan found, which is not
0; and over every sequence of calls from that state, each address returned by
an allocation is such a nonzero multiple, so it never lies in block 0,
whatever bit 0 holds. -/
theorem C2_allocate_never_returns_block_zero (B : Nat) (s : AllocatorState)
    (ops : List Op) (hB : ValidBlockSize B) :
    (∀ a s1, AllocatePhysicalMemoryBlock B s = .returned a s1 →
      ∃ index, GetFirstFreeMemoryBlock s = some index ∧ index ≠ 0 ∧ a = index * B ∧ B ≤ a) ∧
    (∀ a ∈ (runOps B s ops).1, ∃ index, index ≠ 0 ∧ a = index * B ∧ B ≤ a) :=
  ⟨fun _ _ h => allocate_returned_nonzero hB h, runOps_addresses_nonzero B hB ops s⟩

/-- C2 at a state whose bits 0, 1 and 2 are clear: the three allocations of the
run return blocks 1, 2 and 1 again, never block 0. -/
theorem C2_allocate_never_returns_block_zero_witness :
    ValidBlockSize 0x1000 ∧
    bit_test ⟨[0xFFFFFFF8], 29, 32⟩ 0 = some false ∧
    (runOps 0x1000 ⟨[0xFFFFFFF8], 29, 32⟩
      [.allocate, .allocate, .free 0x1000, .allocate]).1 = [0x1000, 0x2000, 0x1000] ∧
    ((∀ a s1, AllocatePhysicalMemoryBlock 0x1000 ⟨[0xFFFFFFF8], 29, 32⟩ = .returned a s1 →
      ∃ index, GetFirstFreeMemoryBlock ⟨[0xFFFFFFF8], 29, 32⟩ = some index ∧ index ≠ 0 ∧
        a = index * 0x1000 ∧ 0x1000 ≤ a) ∧
    (∀ a ∈ (runOps 0x1000 ⟨[0xFFFFFFF8], 29, 32⟩
      [.allocate, .allocate, .free 0x1000, .allocate]).1,
      ∃ index, index ≠ 0 ∧ a = index * 0x1000 ∧ 0x1000 ≤ a)) :=
  ⟨by decide, by decide, by decide,
    C2_allocate_never_returns_block_zero 0x1000 ⟨[0xFFFFFFF8], 29, 32⟩
      [.allocate, .allocate, .free 0x1000, .allocate] (by decide)⟩

/-- C3. When `AllocatePhysicalMemoryBlock` returns `a`, an immediate
`FreePhysicalMemoryBlock(a)` gives back the bitmap of before the allocation,
word for word, and the former `usedPhysicalBlocks`. -/
theorem C3_allocate_then_free_restores (B : Nat) (s s1 : AllocatorState) (a : Nat)
    (hB : ValidBlockSize B) (hs : s.WellTyped)
    (h : AllocatePhysicalMemoryBlock B s = .returned a s1) :
    ∃ s2, FreePhysicalMemoryBlock B s1 a = some s2 ∧
      s2.physicalMemoryBitmap = s.physicalMemoryBitmap ∧
      s2.usedPhysicalBlocks = s.usedPhysicalBlocks ∧
      s2 = s := by
  obtain ⟨hwords, hused, _, hcap⟩ := hs
  obtain ⟨n, sb, _, hn1, _, hfree, _, haddr, hset, hs1⟩ :=
    allocate_returned_spec hB (by unfold AllocatorState.capacity; exact hcap) h
  obtain ⟨w, hw, hsb⟩ := bit_set_eq_some hset
  have hlen : n / 32 < s.physicalMemoryBitmap.length := (List.getElem?_eq_some.mp hw).1
  have hwlt : w < 2 ^ 32 := hwords w (List.mem_iff_getElem?.mpr ⟨_, hw⟩)
  have hbit : w.testBit (n % 32) = false := by
    rw [bit_test_eq, hw] at hfree
    exact Option.some.inj hfree
  have hdiv : a / B = n := by
    rw [haddr]; exact Nat.mul_div_cancel n hB.1
  have hbm1 : s1.physicalMemoryBitmap =
      s.physicalMemoryBitmap.set (n / 32) ((w ||| (1 <<< (n % 32))) % 2 ^ 32) := by
    rw [hs1, hsb]
  have hcap1 : n < s1.capacity := by
    unfold AllocatorState.capacity; rw [hbm1, List.length_set]; omega
  obtain ⟨sc, hclear⟩ := bit_clear_defined hcap1
  obtain ⟨w1, hw1, hsc⟩ := bit_clear_eq_some hclear
  have hw1eq : w1 = (w ||| (1 <<< (n % 32))) % 2 ^ 32 := by
    rw [hbm1, List.getElem?_set_self hlen] at hw1
    exact (Option.some.inj hw1).symm
  have hbm2 : sc.physicalMemoryBitmap = s.physicalMemoryBitmap := by
    rw [hsc]
    show s1.physicalMemoryBitmap.set (n / 32) _ = _
    rw [hbm1, List.set_set, hw1eq, clearWord_setWord hwlt hbit]
    exact list_set_same hw
  have hu1 : s1.usedPhysicalBlocks = (s.usedPhysicalBlocks + 1) % 2 ^ 64 := by
    rw [hs1, hsb]
  have hm1 : s1.maxPhysicalBlocks = s.maxPhysicalBlocks := by
    rw [hs1, hsb]
  have huc : sc.usedPhysicalBlocks = s1.usedPhysicalBlocks := by rw [hsc]
  have hmc : sc.maxPhysicalBlocks = s1.maxPhysicalBlocks := by rw [hsc]
  have hfinal : FreePhysicalMemoryBlock B s1 a =
      some { sc with usedPhysicalBlocks := (sc.usedPhysicalBlocks + (2 ^ 64 - 1)) % 2 ^ 64 } := by
    unfold FreePhysicalMemoryBlock
    rw [hdiv, hclear]
  have hu2 : (sc.usedPhysicalBlocks + (2 ^ 64 - 1)) % 2 ^ 64 = s.usedPhysicalBlocks := by
    rw [huc, hu1]; omega
  refine ⟨_, hfinal, hbm2, hu2, ?_⟩
  cases s with
  | mk bm u m =>
    simp only [AllocatorState.mk.injEq]
    exact ⟨hbm2, hu2, by rw [hmc, hm1]⟩

/-- C3 at a state with blocks 0 and 1 free: block 1 is handed out and freeing
it gives the starting state back. -/
theorem C3_allocate_then_free_restores_witness :
    ValidBlockSize 0x1000 ∧ AllocatorState.WellTyped ⟨[0xFFFFFFFC], 30, 32⟩ ∧
    AllocatePhysicalMemoryBlock 0x1000 ⟨[0xFFFFFFFC], 30, 32⟩
      = .returned 0x1000 ⟨[0xFFFFFFFE], 31, 32⟩ ∧
    ∃ s2, FreePhysicalMemoryBlock 0x1000 ⟨[0xFFFFFFFE], 31, 32⟩ 0x1000 = some s2 ∧
      s2.physicalMemoryBitmap = [0xFFFFFFFC] ∧ s2.usedPhysicalBlocks = 30 ∧
      s2 = ⟨[0xFFFFFFFC], 30, 32⟩ :=
  ⟨by decide, by decide, by decide,
    C3_allocate_then_free_restores 0x1000 ⟨[0xFFFFFFFC], 30, 32⟩ ⟨[0xFFFFFFFE], 31, 32⟩
      0x1000 (by decide) (by decide) (by decide)⟩

/-- C4 fails on the code. With 40 blocks of memory the scan stops after
`40 / 32 = 1` word, so block 35, the one free block, is never looked at and
the allocation takes the out-of-memory path. The state is the one the
initialiser builds from 160 KiB of memory, the usable region
`[0x23000, 0x24000)` and a kernel image ending at 0x20000. -/
theorem C4_free_block_past_last_whole_word :
    InitializePhysicalAllocator 0x1000 2 ⟨0, 160, [⟨20, 0x23000, 0x1000, 1⟩]⟩ 0x20000
      = some ⟨[0xFFFFFFFF, 0xFFFFFFF7], 71, 40⟩ ∧
    AllocatorState.WellTyped ⟨[0xFFFFFFFF, 0xFFFFFFF7], 71, 40⟩ ∧
    40 ≤ AllocatorState.capacity ⟨[0xFFFFFFFF, 0xFFFFFFF7], 71, 40⟩ ∧
    (1 ≤ 35 ∧ 35 < 40 ∧ bit_test ⟨[0xFFFFFFFF, 0xFFFFFFF7], 71, 40⟩ 35 = some false) ∧
    AllocatePhysicalMemoryBlock 0x1000 ⟨[0xFFFFFFFF, 0xFFFFFFF7], 71, 40⟩
      = .outOfMemory ⟨[0xFFFFFFFF, 0xFFFFFFF7], 71, 40⟩ := by
  decide

/-- C5. When every block with index in `[1, maxPhysicalBlocks)` is marked
used, whatever bit 0 holds, `GetFirstFreeMemoryBlock` returns the sentinel 0
and `AllocatePhysicalMemoryBlock` takes the out-of-memory path: no address is
returned and the state it stops in is the state it was called in. -/
theorem C5_exhaustion_takes_fatal_path (B : Nat) (s : AllocatorState) (hs : s.WellTyped)
    (hall : ∀ idx, 1 ≤ idx → idx < s.maxPhysicalBlocks → bit_test s idx = some true) :
    GetFirstFreeMemoryBlock s = some 0 ∧
    AllocatePhysicalMemoryBlock B s = .outOfMemory s := by
  have h32 : s.capacity < 2 ^ 32 := hs.2.2.2
  have hscan : GetFirstFreeMemoryBlock s = some 0 := by
    unfold GetFirstFreeMemoryBlock
    apply scanFrom_all_used s h32
    intro m _ h2 h3
    exact hall m (by omega) (by omega)
  exact ⟨hscan, allocate_of_sentinel hscan⟩

/-- C5 at a two-word bitmap whose only clear bit is bit 0. -/
theorem C5_exhaustion_takes_fatal_path_witness :
    AllocatorState.WellTyped ⟨[0xFFFFFFFE, 0xFFFFFFFF], 63, 64⟩ ∧
    (∀ idx, 1 ≤ idx → idx < 64 →
      bit_test ⟨[0xFFFFFFFE, 0xFFFFFFFF], 63, 64⟩ idx = some true) ∧
    bit_test ⟨[0xFFFFFFFE, 0xFFFFFFFF], 63, 64⟩ 0 = some false ∧
    GetFirstFreeMemoryBlock ⟨[0xFFFFFFFE, 0xFFFFFFFF], 63, 64⟩ = some 0 ∧
    AllocatePhysicalMemoryBlock 0x1000 ⟨[0xFFFFFFFE, 0xFFFFFFFF], 63, 64⟩
      = .outOfMemory ⟨[0xFFFFFFFE, 0xFFFFFFFF], 63, 64⟩ :=
  ⟨by decide, by decide, by decide,
    C5_exhaustion_takes_fatal_path 0x1000 ⟨[0xFFFFFFFE, 0xFFFFFFFF], 63, 64⟩
      (by decide) (by decide)⟩

/-- C6. When `AllocatePhysicalMemoryBlock` returns, the address is
`n * PHYSALLOC_BLOCK_SIZE` for the smallest `n` in `[1, maxPhysicalBlocks)`
whose bit was clear; afterwards bit `n` is set, every other bit is as before,
`maxPhysicalBlocks` is unchanged and `usedPhysicalBlocks` has been incremented
(as a `uint64_t`: by exactly 1 unless it was `2 ^ 64 - 1`). -/
theorem C6_allocate_returns_lowest_free_block (B : Nat) (s s1 : AllocatorState) (a : Nat)
    (hB : ValidBlockSize B) (hs : s.WellTyped)
    (h : AllocatePhysicalMemoryBlock B s = .returned a s1) :
    ∃ n, 1 ≤ n ∧ n < s.maxPhysicalBlocks ∧ bit_test s n = some false ∧
      (∀ m, 1 ≤ m → m < n → bit_test s m = some true) ∧
      a = n * B ∧
      bit_test s1 n = some true ∧
      (∀ m, m ≠ n → bit_test s1 m = bit_test s m) ∧
      s1.physicalMemoryBitmap.length = s.physicalMemoryBitmap.length ∧
      s1.maxPhysicalBlocks = s.maxPhysicalBlocks ∧
      s1.usedPhysicalBlocks = (s.usedPhysicalBlocks + 1) % 2 ^ 64 ∧
      (s.usedPhysicalBlocks ≠ 2 ^ 64 - 1 → s1.usedPhysicalBlocks = s.usedPhysicalBlocks + 1) := by
  have h32 : s.capacity < 2 ^ 32 := hs.2.2.2
  have hu : s.usedPhysicalBlocks < 2 ^ 64 := hs.2.1
  obtain ⟨n, sb, _, hn1, hn2, hfree, hmin, haddr, hset, hs1⟩ := allocate_returned_spec hB h32 h
  obtain ⟨hused, hmax, hlen, _, _⟩ := bit_set_fields hset
  have hbits := bit_test_bit_set hset
  have hu1 : s1.usedPhysicalBlocks = (s.usedPhysicalBlocks + 1) % 2 ^ 64 := by
    rw [hs1]
    show (sb.usedPhysicalBlocks + 1) % 2 ^ 64 = _
    rw [hused]
  refine ⟨n, hn1, by omega, hfree, hmin, haddr, ?_, ?_, ?_, ?_, hu1, ?_⟩
  · rw [hs1, bit_test_with_used, hbits n, if_pos rfl]
  · intro m hm
    rw [hs1, bit_test_with_used, hbits m, if_neg hm]
  · rw [hs1]; exact hlen
  · rw [hs1]; exact hmax
  · intro hne
    rw [hu1]
    exact Nat.mod_eq_of_lt (by omega)

/-- C6 at a one-word bitmap with bits 0, 3 and 5 clear: block 3 is returned. -/
theorem C6_allocate_returns_lowest_free_block_witness :
    ValidBlockSize 0x1000 ∧ AllocatorState.WellTyped ⟨[0xFFFFFFD6], 29, 32⟩ ∧
    AllocatePhysicalMemoryBlock 0x1000 ⟨[0xFFFFFFD6], 29, 32⟩
      = .returned 0x3000 ⟨[0xFFFFFFDE], 30, 32⟩ ∧
    ∃ n, 1 ≤ n ∧ n < 32 ∧ bit_test ⟨[0xFFFFFFD6], 29, 32⟩ n = some false ∧
      (∀ m, 1 ≤ m → m < n → bit_test ⟨[0xFFFFFFD6], 29, 32⟩ m = some true) ∧
      0x3000 = n * 0x1000 ∧
      bit_test ⟨[0xFFFFFFDE], 30, 32⟩ n = some true ∧
      (∀ m, m ≠ n →
        bit_test ⟨[0xFFFFFFDE], 30, 32⟩ m = bit_test ⟨[0xFFFFFFD6], 29, 32⟩ m) ∧
      [0xFFFFFFDE].length = [0xFFFFFFD6].length ∧
      32 = 32 ∧
      30 = (29 + 1) % 2 ^ 64 ∧
      (29 ≠ 2 ^ 64 - 1 → 30 = 29 + 1) :=
  ⟨by decide, by decide, by decide,
    C6_allocate_returns_lowest_free_block 0x1000 ⟨[0xFFFFFFD6], 29, 32⟩ ⟨[0xFFFFFFDE], 30, 32⟩
      0x3000 (by decide) (by decide) (by decide)⟩

/-- C7 fails on the code in its counter clause. In the scenario (288 blocks)
the initialiser does leave exactly blocks 256..271 free, but
`usedPhysicalBlocks` ends at `maxPhysicalBlocks + 240`, not at
`maxPhysicalBlocks - 16`. -/
theorem C7_scenario_counter_is_max_plus_240 :
    InitializePhysicalAllocator 0x1000 9 (scenarioInfo 1152) 0x100000
      = some ⟨List.replicate 8 0xFFFFFFFF ++ [0xFFFF0000], 288 + 240, 288⟩ ∧
    (∀ i, i < 288 →
      bit_test ⟨List.replicate 8 0xFFFFFFFF ++ [0xFFFF0000], 288 + 240, 288⟩ i
        = some (decide (¬ (256 ≤ i ∧ i < 272)))) ∧
    288 + 240 ≠ 288 - 16 := by
  decide

/-- C8 fails on the code. With `max_blocks = 272` the scan covers
`272 / 32 = 8` words, and the sixteen free blocks 256..271 sit in word 8: the
very first allocation takes the out-of-memory path. With `max_blocks = 288`
the sixteen addresses come out in order and the 17th call is the fatal one. -/
theorem C8_scenario_first_allocation_is_fatal :
    InitializePhysicalAllocator 0x1000 9 (scenarioInfo 1088) 0x100000
      = some ⟨List.replicate 8 0xFFFFFFFF ++ [0xFFFF0000], 512, 272⟩ ∧
    AllocatePhysicalMemoryBlock 0x1000 ⟨List.replicate 8 0xFFFFFFFF ++ [0xFFFF0000], 512, 272⟩
      = .outOfMemory ⟨List.replicate 8 0xFFFFFFFF ++ [0xFFFF0000], 512, 272⟩ ∧
    allocateMany 0x1000 17 ⟨List.replicate 8 0xFFFFFFFF ++ [0xFFFF0000], 528, 288⟩
      = ((List.range 16).map (fun k => 0x100000 + k * 0x1000),
          .outOfMemory ⟨List.replicate 9 0xFFFFFFFF, 544, 288⟩) := by
  decide

/-- C9 fails on the code. With a kernel image ending at 0x100800, inside block
256, the re-marking covers `0x100800 / 0x1000 = 256` blocks, 0..255: block 256,
freed by the usable region, stays free, and the first allocation returns
0x100000, an address of the kernel image. -/
theorem C9_partial_last_kernel_block_is_handed_out :
    InitializePhysicalAllocator 0x1000 9 (scenarioInfo 1152) 0x100800
      = some ⟨List.replicate 8 0xFFFFFFFF ++ [0xFFFF0000], 528, 288⟩ ∧
    bit_test ⟨List.replicate 8 0xFFFFFFFF ++ [0xFFFF0000], 528, 288⟩ 256 = some false ∧
    AllocatePhysicalMemoryBlock 0x1000 ⟨List.replicate 8 0xFFFFFFFF ++ [0xFFFF0000], 528, 288⟩
      = .returned 0x100000 ⟨List.replicate 8 0xFFFFFFFF ++ [0xFFFF0001], 529, 288⟩ ∧
    256 * 0x1000 ≤ 0x100000 ∧ 0x100000 < 0x100800 := by
  decide

/-- C10. Rounding of the bulk primitives, in a state with room for the blocks
named: `MarkMemoryRegionUsed(base, size)` sets exactly the bits of
`[base / B, base / B + size / B)` and adds `size / B` (floor) to
`usedPhysicalBlocks`; `MarkMemoryRegionFree(base, size)` clears exactly the
bits of `[base / B, base / B + ⌈size / B⌉)` and subtracts `⌈size / B⌉`; the
counter arithmetic is that of a `uint64_t`; no other bit changes. With
`B = 0x1000`, `MarkMemoryRegionUsed(0x100000, 0x1800)` sets block 256 and
changes no other bit, block 257 included. -/
theorem C10_region_rounding (B : Nat) (s : AllocatorState)
    (baseU sizeU baseF sizeF : Nat) (hB : ValidBlockSize B) (hs : s.WellTyped)
    (hU : baseU / B + sizeU / B ≤ s.capacity)
    (hF : baseF / B + sizeF ⌈/⌉ B ≤ s.capacity) :
    (∃ s1, MarkMemoryRegionUsed B s baseU sizeU = some s1 ∧
      (∀ i, bit_test s1 i =
        if baseU / B ≤ i ∧ i < baseU / B + sizeU / B then some true else bit_test s i) ∧
      s1.usedPhysicalBlocks = (s.usedPhysicalBlocks + sizeU / B) % 2 ^ 64 ∧
      (s.usedPhysicalBlocks + sizeU / B < 2 ^ 64 →
        s1.usedPhysicalBlocks = s.usedPhysicalBlocks + sizeU / B) ∧
      s1.maxPhysicalBlocks = s.maxPhysicalBlocks) ∧
    (∃ s2, MarkMemoryRegionFree B s baseF sizeF = some s2 ∧
      (∀ i, bit_test s2 i =
        if baseF / B ≤ i ∧ i < baseF / B + sizeF ⌈/⌉ B then some false else bit_test s i) ∧
      s2.usedPhysicalBlocks = (s.usedPhysicalBlocks + (2 ^ 64 - sizeF ⌈/⌉ B)) % 2 ^ 64 ∧
      (sizeF ⌈/⌉ B ≤ s.usedPhysicalBlocks →
        s2.usedPhysicalBlocks = s.usedPhysicalBlocks - sizeF ⌈/⌉ B) ∧
      s2.maxPhysicalBlocks = s.maxPhysicalBlocks) ∧
    (∀ t t1, MarkMemoryRegionUsed 0x1000 t 0x100000 0x1800 = some t1 →
      bit_test t1 256 = some true ∧ ∀ i, i ≠ 256 → bit_test t1 i = bit_test t i) := by
  have h32 : s.capacity < 2 ^ 32 := hs.2.2.2
  have hu : s.usedPhysicalBlocks < 2 ^ 64 := hs.2.1
  refine ⟨?_, ?_, ?_⟩
  · obtain ⟨s1, h1, hmax, hused, _, hbits, _⟩ :=
      markUsedLoop_spec (sizeU / B) (baseU / B) s hU h32 hu
    refine ⟨s1, ?_, hbits, hused, ?_, hmax⟩
    · unfold MarkMemoryRegionUsed
      rw [Nat.mod_eq_of_lt (Nat.lt_of_le_of_lt (Nat.le_trans (Nat.le_add_left _ _) hU) h32),
        Nat.mod_eq_of_lt (Nat.lt_of_le_of_lt (Nat.le_trans (Nat.le_add_right _ _) hU) h32)]
      exact h1
    · intro hlt
      rw [hused]
      exact Nat.mod_eq_of_lt hlt
  · rw [Nat.ceilDiv_eq_add_pred_div] at hF ⊢
    have hpos : 0 < B := hB.1
    have hc : (sizeF + B - 1) / B < 2 ^ 32 :=
      Nat.lt_of_le_of_lt (Nat.le_trans (Nat.le_add_left _ _) hF) h32
    have hsum : sizeF + B - 1 < 2 ^ 32 * B := (Nat.div_lt_iff_lt_mul hpos).mp hc
    have hmul : 2 ^ 32 * B ≤ 2 ^ 32 * 2 ^ 31 := Nat.mul_le_mul_left _ (Nat.le_of_lt hB.2)
    have hpow : (2 : Nat) ^ 32 * 2 ^ 31 < 2 ^ 64 := by norm_num
    have hrew : sizeF + (B - 1) = sizeF + B - 1 := by omega
    obtain ⟨s2, h2, hmax, hused, _, hbits, _⟩ :=
      markFreeLoop_spec ((sizeF + B - 1) / B) (baseF / B) s hF h32 hu
    refine ⟨s2, ?_, hbits, hused, ?_, hmax⟩
    · unfold MarkMemoryRegionFree
      rw [hrew, Nat.mod_eq_of_lt (show sizeF + B - 1 < 2 ^ 64 by omega),
        Nat.mod_eq_of_lt hc,
        Nat.mod_eq_of_lt (Nat.lt_of_le_of_lt (Nat.le_trans (Nat.le_add_right _ _) hF) h32)]
      exact h2
    · intro hle
      rw [hused]
      generalize (sizeF + B - 1) / B = c at hle hc
      omega
  · intro t t1 h
    have hblocks : (0x1800 / 0x1000) % 2 ^ 32 = 1 := by decide
    have halign : (0x100000 / 0x1000) % 2 ^ 32 = 256 := by decide
    unfold MarkMemoryRegionUsed at h
    rw [hblocks, halign] at h
    change (match bit_set t 256 with
      | none => none
      | some sb => markUsedLoop 0 ((256 + 1) % 2 ^ 32)
          { sb with usedPhysicalBlocks := (sb.usedPhysicalBlocks + 1) % 2 ^ 64 }) = some t1 at h
    cases hb : bit_set t 256 with
    | none => rw [hb] at h; exact Option.noConfusion h
    | some sb =>
      rw [hb] at h
      have ht1 : t1 = { sb with usedPhysicalBlocks := (sb.usedPhysicalBlocks + 1) % 2 ^ 64 } :=
        (Option.some.inj h).symm
      have hbits := bit_test_bit_set hb
      constructor
      · rw [ht1, bit_test_with_used, hbits 256, if_pos rfl]
      · intro i hi
        rw [ht1, bit_test_with_used, hbits i, if_neg hi]

/-- C10 with `B = 0x1000` on an all-clear, all-set pair of words: marking
`(0x5000, 0x2800)` used sets blocks 5 and 6 only (two and a half blocks,
floored), and marking `(0x21800, 0x1800)` free clears blocks 33 and 34 (one
and a half blocks, rounded up). -/
theorem C10_region_rounding_witness :
    ValidBlockSize 0x1000 ∧ AllocatorState.WellTyped ⟨[0, 0xFFFFFFFF], 32, 64⟩ ∧
    0x5000 / 0x1000 + 0x2800 / 0x1000 ≤ AllocatorState.capacity ⟨[0, 0xFFFFFFFF], 32, 64⟩ ∧
    0x21800 / 0x1000 + 0x1800 ⌈/⌉ 0x1000 ≤ AllocatorState.capacity ⟨[0, 0xFFFFFFFF], 32, 64⟩ ∧
    MarkMemoryRegionUsed 0x1000 ⟨[0, 0xFFFFFFFF], 32, 64⟩ 0x5000 0x2800
      = some ⟨[0x60, 0xFFFFFFFF], 34, 64⟩ ∧
    MarkMemoryRegionFree 0x1000 ⟨[0, 0xFFFFFFFF], 32, 64⟩ 0x21800 0x1800
      = some ⟨[0, 0xFFFFFFF9], 30, 64⟩ ∧
    ((∃ s1, MarkMemoryRegionUsed 0x1000 ⟨[0, 0xFFFFFFFF], 32, 64⟩ 0x5000 0x2800 = some s1 ∧
      (∀ i, bit_test s1 i =
        if 0x5000 / 0x1000 ≤ i ∧ i < 0x5000 / 0x1000 + 0x2800 / 0x1000 then some true
        else bit_test ⟨[0, 0xFFFFFFFF], 32, 64⟩ i) ∧
      s1.usedPhysicalBlocks = (32 + 0x2800 / 0x1000) % 2 ^ 64 ∧
      (32 + 0x2800 / 0x1000 < 2 ^ 64 → s1.usedPhysicalBlocks = 32 + 0x2800 / 0x1000) ∧
      s1.maxPhysicalBlocks = 64) ∧
    (∃ s2, MarkMemoryRegionFree 0x1000 ⟨[0, 0xFFFFFFFF], 32, 64⟩ 0x21800 0x1800 = some s2 ∧
      (∀ i, bit_test s2 i =
        if 0x21800 / 0x1000 ≤ i ∧ i < 0x21800 / 0x1000 + 0x1800 ⌈/⌉ 0x1000 then some false
        else bit_test ⟨[0, 0xFFFFFFFF], 32, 64⟩ i) ∧
      s2.usedPhysicalBlocks = (32 + (2 ^ 64 - 0x1800 ⌈/⌉ 0x1000)) % 2 ^ 64 ∧
      (0x1800 ⌈/⌉ 0x1000 ≤ 32 → s2.usedPhysicalBlocks = 32 - 0x1800 ⌈/⌉ 0x1000) ∧
      s2.maxPhysicalBlocks = 64) ∧
    (∀ t t1, MarkMemoryRegionUsed 0x1000 t 0x100000 0x1800 = some t1 →
      bit_test t1 256 = some true ∧ ∀ i, i ≠ 256 → bit_test t1 i = bit_test t i)) :=
  ⟨by decide, by decide, by decide, by decide, by decide, by decide,
    C10_region_rounding 0x1000 ⟨[0, 0xFFFFFFFF], 32, 64⟩ 0x5000 0x2800 0x21800 0x1800
      (by decide) (by decide) (by decide) (by decide)⟩

/-- C11 as stated is false. With `B = 0x1000`, `MarkMemoryRegionFree(0x100000,
0x1800)` clears block 257, whose bytes `[0x101000, 0x102000)` reach past the
end 0x101800 of the range. -/
theorem C11_counterexample_freed_block_reaches_past_range :
    ValidBlockSize 0x1000 ∧
    AllocatorState.WellTyped ⟨List.replicate 9 0xFFFFFFFF, 288, 288⟩ ∧
    MarkMemoryRegionFree 0x1000 ⟨List.replicate 9 0xFFFFFFFF, 288, 288⟩ 0x100000 0x1800
      = some ⟨List.replicate 8 0xFFFFFFFF ++ [0xFFFFFFFC], 286, 288⟩ ∧
    bit_test ⟨List.replicate 9 0xFFFFFFFF, 288, 288⟩ 257 = some true ∧
    bit_test ⟨List.replicate 8 0xFFFFFFFF ++ [0xFFFFFFFC], 286, 288⟩ 257 = some false ∧
    ¬ (0x100000 ≤ 257 * 0x1000 ∧ (257 + 1) * 0x1000 ≤ 0x100000 + 0x1800) := by
  decide

/-- C11, amended. Every block whose bit `MarkMemoryRegionFree(base, size)`
turns from set to clear has its index in
`[base / B, base / B + ⌈size / B⌉)` and holds at least one byte of
`[base, base + size)`; it lies wholly inside that byte range when `base` and
`size` are multiples of the block size. -/
theorem C11_freed_blocks_meet_the_range (B : Nat) (s s2 : AllocatorState)
    (base size i : Nat) (hB : ValidBlockSize B) (hs : s.WellTyped)
    (hfit : base / B + size ⌈/⌉ B ≤ s.capacity)
    (h : MarkMemoryRegionFree B s base size = some s2)
    (hset : bit_test s i = some true) (hclr : bit_test s2 i = some false) :
    (base / B ≤ i ∧ i < base / B + size ⌈/⌉ B) ∧
    (i * B < base + size ∧ base < (i + 1) * B) ∧
    (B ∣ base → B ∣ size → base ≤ i * B ∧ (i + 1) * B ≤ base + size) := by
  rw [Nat.ceilDiv_eq_add_pred_div] at hfit ⊢
  obtain ⟨t, ht, hbits, _⟩ := markMemoryRegionFree_spec B s base size hB hs hfit
  have hst : t = s2 := Option.some.inj (ht.symm.trans h)
  subst hst
  have hin : base / B ≤ i ∧ i < base / B + (size + B - 1) / B := by
    by_contra hcon
    have := hbits i
    rw [if_neg hcon, hclr, hset] at this
    exact Bool.noConfusion (Option.some.inj this)
  exact ⟨hin, block_meets_range hB.1 hin.1 hin.2,
    fun hb hsz => block_inside_aligned_range hB.1 hb hsz hin.1 hin.2⟩

/-- The amended C11 at the aligned call `MarkMemoryRegionFree(0x100000,
0x2000)` on an all-set bitmap and block 257, one of the two blocks cleared:
it lies in the block range, meets the byte range, and, base and size being
multiples of 0x1000, lies wholly inside `[0x100000, 0x102000)`. -/
theorem C11_freed_blocks_meet_the_range_witness :
    ValidBlockSize 0x1000 ∧
    AllocatorState.WellTyped ⟨List.replicate 9 0xFFFFFFFF, 288, 288⟩ ∧
    0x100000 / 0x1000 + 0x2000 ⌈/⌉ 0x1000
      ≤ AllocatorState.capacity ⟨List.replicate 9 0xFFFFFFFF, 288, 288⟩ ∧
    MarkMemoryRegionFree 0x1000 ⟨List.replicate 9 0xFFFFFFFF, 288, 288⟩ 0x100000 0x2000
      = some ⟨List.replicate 8 0xFFFFFFFF ++ [0xFFFFFFFC], 286, 288⟩ ∧
    bit_test ⟨List.replicate 9 0xFFFFFFFF, 288, 288⟩ 257 = some true ∧
    bit_test ⟨List.replicate 8 0xFFFFFFFF ++ [0xFFFFFFFC], 286, 288⟩ 257 = some false ∧
    0x1000 ∣ 0x100000 ∧ 0x1000 ∣ 0x2000 ∧
    ((0x100000 / 0x1000 ≤ 257 ∧ 257 < 0x100000 / 0x1000 + 0x2000 ⌈/⌉ 0x1000) ∧
      (257 * 0x1000 < 0x100000 + 0x2000 ∧ 0x100000 < (257 + 1) * 0x1000) ∧
      (0x1000 ∣ 0x100000 → 0x1000 ∣ 0x2000 →
        0x100000 ≤ 257 * 0x1000 ∧ (257 + 1) * 0x1000 ≤ 0x100000 + 0x2000)) ∧
    (0x100000 ≤ 257 * 0x1000 ∧ (257 + 1) * 0x1000 ≤ 0x100000 + 0x2000) :=
  ⟨by decide, by decide, by decide, by decide, by decide, by decide, by decide, by decide,
    C11_freed_blocks_meet_the_range 0x1000 ⟨List.replicate 9 0xFFFFFFFF, 288, 288⟩
      ⟨List.replicate 8 0xFFFFFFFF ++ [0xFFFFFFFC], 286, 288⟩ 0x100000 0x2000 257
      (by decide) (by decide) (by decide) (by decide) (by decide) (by decide),
    (C11_freed_blocks_meet_the_range 0x1000 ⟨List.replicate 9 0xFFFFFFFF, 288, 288⟩
      ⟨List.replicate 8 0xFFFFFFFF ++ [0xFFFFFFFC], 286, 288⟩ 0x100000 0x2000 257
      (by decide) (by decide) (by decide) (by decide) (by decide) (by decide)).2.2
      (by decide) (by decide)⟩

/-- C12. For every address whose block index `addr / B` is inside the bitmap,
aligned or not, allocated or not, `FreePhysicalMemoryBlock(addr)` clears that
one bit, leaves every other bit, the array length and `maxPhysicalBlocks`
unchanged, and decrements `usedPhysicalBlocks` by 1 modulo `2 ^ 64`, whatever
the bit held before. -/
theorem C12_free_clears_exactly_one_bit (B : Nat) (s : AllocatorState) (addr : Nat)
    (_hB : ValidBlockSize B) (hs : s.WellTyped) (hcap : addr / B < s.capacity) :
    ∃ s1, FreePhysicalMemoryBlock B s addr = some s1 ∧
      bit_test s1 (addr / B) = some false ∧
      (∀ i, i ≠ addr / B → bit_test s1 i = bit_test s i) ∧
      s1.physicalMemoryBitmap.length = s.physicalMemoryBitmap.length ∧
      s1.maxPhysicalBlocks = s.maxPhysicalBlocks ∧
      s1.usedPhysicalBlocks = (s.usedPhysicalBlocks + (2 ^ 64 - 1)) % 2 ^ 64 ∧
      (s1.usedPhysicalBlocks + 1) % 2 ^ 64 = s.usedPhysicalBlocks := by
  obtain ⟨s1, h1, hbit, hother, _, hlen, hmax, hused, _⟩ := free_spec B s addr hcap
  have hu : s.usedPhysicalBlocks < 2 ^ 64 := hs.2.1
  refine ⟨s1, h1, hbit, hother, hlen, hmax, hused, ?_⟩
  rw [hused]; omega

/-- C12 on an unaligned address of a block that is already free, with the
counter at 0: bit 1 stays clear, nothing else changes, the counter wraps to
`2 ^ 64 - 1`. -/
theorem C12_free_clears_exactly_one_bit_witness :
    ValidBlockSize 0x1000 ∧ AllocatorState.WellTyped ⟨[0xFFFFFFF0], 0, 32⟩ ∧
    0x1234 / 0x1000 < AllocatorState.capacity ⟨[0xFFFFFFF0], 0, 32⟩ ∧
    FreePhysicalMemoryBlock 0x1000 ⟨[0xFFFFFFF0], 0, 32⟩ 0x1234
      = some ⟨[0xFFFFFFF0], 2 ^ 64 - 1, 32⟩ ∧
    ∃ s1, FreePhysicalMemoryBlock 0x1000 ⟨[0xFFFFFFF0], 0, 32⟩ 0x1234 = some s1 ∧
      bit_test s1 (0x1234 / 0x1000) = some false ∧
      (∀ i, i ≠ 0x1234 / 0x1000 → bit_test s1 i = bit_test ⟨[0xFFFFFFF0], 0, 32⟩ i) ∧
      s1.physicalMemoryBitmap.length = [0xFFFFFFF0].length ∧
      s1.maxPhysicalBlocks = 32 ∧
      s1.usedPhysicalBlocks = (0 + (2 ^ 64 - 1)) % 2 ^ 64 ∧
      (s1.usedPhysicalBlocks + 1) % 2 ^ 64 = 0 :=
  ⟨by decide, by decide, by decide, by decide,
    C12_free_clears_exactly_one_bit 0x1000 ⟨[0xFFFFFFF0], 0, 32⟩ 0x1234
      (by decide) (by decide) (by decide)⟩

/-- C13. When the 2 MiB run starting at block `addr / B` fits in the bitmap,
`FreeLargePhysicalMemoryBlock(addr)` ends in the very state reached by
`N = 0x200000 / B` successive `FreePhysicalMemoryBlock` calls on `addr`,
`addr + B`, ...: the `N` bits from `addr / B` on are clear, every other bit is
as before, and the counter is lowered by `N` (modulo `2 ^ 64`). -/
theorem C13_free_large_is_successive_frees (B : Nat) (s : AllocatorState) (addr : Nat)
    (hB : ValidBlockSize B) (hs : s.WellTyped)
    (hfit : addr / B + 0x200000 / B ≤ s.capacity) :
    ∃ t, FreeLargePhysicalMemoryBlock B s addr = some t ∧
      freeSuccessive B (0x200000 / B) addr s = some t ∧
      (∀ i, bit_test t i =
        if addr / B ≤ i ∧ i < addr / B + 0x200000 / B then some false else bit_test s i) ∧
      t.usedPhysicalBlocks = (s.usedPhysicalBlocks + (2 ^ 64 - 0x200000 / B)) % 2 ^ 64 ∧
      t.maxPhysicalBlocks = s.maxPhysicalBlocks := by
  have h32 : s.capacity < 2 ^ 32 := hs.2.2.2
  have hu : s.usedPhysicalBlocks < 2 ^ 64 := hs.2.1
  have hN : 0x200000 / B ≤ 0x200000 := Nat.div_le_self _ _
  obtain ⟨t, ht, hmax, hused, _, hbits⟩ :=
    freeSuccessive_spec hB.1 (0x200000 / B) addr (addr / B) s rfl hfit h32 hu
  refine ⟨t, ?_, ht, hbits, hused, hmax⟩
  unfold FreeLargePhysicalMemoryBlock
  have hlt : addr / B + 0x200000 / B < 2 ^ 64 := by
    generalize addr / B = q at hfit
    generalize 0x200000 / B = n at hfit hN
    omega
  rw [freeLargeLoop_eq_freeSuccessive hB.1 _ _ _ _ hlt, ht]
  have hmod : (0x200000 / B) % 2 ^ 64 = 0x200000 / B := Nat.mod_eq_of_lt (by omega)
  rw [hmod, ← hused]
  rfl

/-- C13 with `B = 0x1000` on a 17-word bitmap, all set: freeing the large
block at 0x20000 clears the 512 blocks 32..543 and takes the counter from 544
to 32, as the 512 single frees do. -/
theorem C13_free_large_is_successive_frees_witness :
    ValidBlockSize 0x1000 ∧
    AllocatorState.WellTyped ⟨List.replicate 17 0xFFFFFFFF, 544, 544⟩ ∧
    0x20000 / 0x1000 + 0x200000 / 0x1000
      ≤ AllocatorState.capacity ⟨List.replicate 17 0xFFFFFFFF, 544, 544⟩ ∧
    FreeLargePhysicalMemoryBlock 0x1000 ⟨List.replicate 17 0xFFFFFFFF, 544, 544⟩ 0x20000
      = some ⟨0xFFFFFFFF :: List.replicate 16 0, 32, 544⟩ ∧
    ∃ t, FreeLargePhysicalMemoryBlock 0x1000 ⟨List.replicate 17 0xFFFFFFFF, 544, 544⟩ 0x20000
        = some t ∧
      freeSuccessive 0x1000 (0x200000 / 0x1000) 0x20000
        ⟨List.replicate 17 0xFFFFFFFF, 544, 544⟩ = some t ∧
      (∀ i, bit_test t i =
        if 0x20000 / 0x1000 ≤ i ∧ i < 0x20000 / 0x1000 + 0x200000 / 0x1000 then some false
        else bit_test ⟨List.replicate 17 0xFFFFFFFF, 544, 544⟩ i) ∧
      t.usedPhysicalBlocks = (544 + (2 ^ 64 - 0x200000 / 0x1000)) % 2 ^ 64 ∧
      t.maxPhysicalBlocks = 544 :=
  ⟨by decide, by decide, by decide, by decide,
    C13_free_large_is_successive_frees 0x1000 ⟨List.replicate 17 0xFFFFFFFF, 544, 544⟩ 0x20000
      (by decide) (by decide) (by decide)⟩

/-- C14 fails on the code. `FreePhysicalMemoryBlock` clears the bit and
decrements the counter with `allocatorLock` never taken: its body has no lock
call, and neither have the large-block free and the two region functions;
only `AllocatePhysicalMemoryBlock` writes between `acquireLock` and
`releaseLock`, and returns with the lock free. -/
theorem C14_free_writes_without_the_lock :
    FreePhysicalMemoryBlock 0x1000 ⟨[0xFFFFFFFE], 31, 32⟩ 0x1000
      = some ⟨[0xFFFFFFFC], 30, 32⟩ ∧
    opEvents 0x1000 ⟨[0xFFFFFFFE], 31, 32⟩ (.free 0x1000) = [.write, .write] ∧
    writesAreGuarded false (opEvents 0x1000 ⟨[0xFFFFFFFE], 31, 32⟩ (.free 0x1000)) = false ∧
    writesAreGuarded false
      (opEvents 0x1000 ⟨[0xFFFFFFFE], 31, 32⟩ (.freeLarge 0x1000)) = false ∧
    writesAreGuarded false
      (opEvents 0x1000 ⟨[0xFFFFFFFE], 31, 32⟩ (.markUsed 0x1000 0x1000)) = false ∧
    writesAreGuarded false
      (opEvents 0x1000 ⟨[0xFFFFFFFE], 31, 32⟩ (.markFree 0x1000 0x1000)) = false ∧
    AllocatePhysicalMemoryBlock 0x1000 ⟨[0xFFFFFFFC], 30, 32⟩
      = .returned 0x1000 ⟨[0xFFFFFFFE], 31, 32⟩ ∧
    writesAreGuarded false (opEvents 0x1000 ⟨[0xFFFFFFFC], 30, 32⟩ .allocate) = true ∧
    lockHeldAfter false (opEvents 0x1000 ⟨[0xFFFFFFFC], 30, 32⟩ .allocate) = false := by
  decide

/-- C15. `GetFirstFreeMemoryBlock`, run as a state transformer that threads the
globals through every read it makes, returns the index of the scan together
with the very state it was given; so a second call right after the first
returns the same index, again without changing the state. The index does not
depend on `usedPhysicalBlocks`. -/
theorem C15_scan_is_a_pure_read (s : AllocatorState) :
    GetFirstFreeMemoryBlockSt s = (GetFirstFreeMemoryBlock s).map (fun r => (r, s)) ∧
    (∀ r s1, GetFirstFreeMemoryBlockSt s = some (r, s1) →
      s1 = s ∧ GetFirstFreeMemoryBlockSt s1 = some (r, s)) ∧
    (∀ u, GetFirstFreeMemoryBlock { s with usedPhysicalBlocks := u }
      = GetFirstFreeMemoryBlock s) := by
  refine ⟨getFirstFreeSt_eq s, ?_, fun _ => rfl⟩
  intro r s1 h
  have h' := h
  rw [getFirstFreeSt_eq] at h'
  cases hg : GetFirstFreeMemoryBlock s with
  | none => rw [hg] at h'; exact Option.noConfusion h'
  | some r0 =>
    rw [hg] at h'
    have hpair : (r0, s) = (r, s1) := Option.some.inj h'
    have hs1 : s1 = s := (congrArg Prod.snd hpair).symm
    subst hs1
    exact ⟨rfl, h⟩

/-- C15 on a one-word bitmap with bits 0, 3 and 5 clear: the call returns
index 3 and the state unchanged, and so does the call after it. -/
theorem C15_scan_is_a_pure_read_witness :
    GetFirstFreeMemoryBlockSt ⟨[0xFFFFFFD6], 29, 32⟩ = some (3, ⟨[0xFFFFFFD6], 29, 32⟩) ∧
    ((⟨[0xFFFFFFD6], 29, 32⟩ : AllocatorState) = ⟨[0xFFFFFFD6], 29, 32⟩ ∧
      GetFirstFreeMemoryBlockSt ⟨[0xFFFFFFD6], 29, 32⟩ = some (3, ⟨[0xFFFFFFD6], 29, 32⟩)) :=
  ⟨by decide,
    (C15_scan_is_a_pure_read ⟨[0xFFFFFFD6], 29, 32⟩).2.1 3 ⟨[0xFFFFFFD6], 29, 32⟩ (by decide)⟩

/-- C16. For every memory map the initialiser ends in the same state (same
bitmap, same counters, or the same undefined outcome) when the map is cut just
before its first type-0 entry, when every entry of a type other than 0 and 1
is deleted, and when both are done: only the type-1 entries before the
terminator have an effect. -/
theorem C16_only_usable_entries_before_terminator_count (B D : Nat)
    (mem_info : memory_info_t) (kernel_end : Nat) :
    InitializePhysicalAllocator B D
      { mem_info with mem_map := mem_info.mem_map.takeWhile (fun e => e.type != 0) } kernel_end
      = InitializePhysicalAllocator B D mem_info kernel_end ∧
    InitializePhysicalAllocator B D
      { mem_info with
        mem_map := mem_info.mem_map.filter (fun e => e.type == 0 || e.type == 1) } kernel_end
      = InitializePhysicalAllocator B D mem_info kernel_end ∧
    InitializePhysicalAllocator B D
      { mem_info with
        mem_map := (mem_info.mem_map.takeWhile (fun e => e.type != 0)).filter
          (fun e => e.type == 1) } kernel_end
      = InitializePhysicalAllocator B D mem_info kernel_end := by
  refine ⟨?_, ?_, ?_⟩
  · exact init_congr_walk B D mem_info kernel_end _
      (fun s => walkMemoryMap_takeWhile B mem_info.mem_map s)
  · exact init_congr_walk B D mem_info kernel_end _
      (fun s => walkMemoryMap_filter B mem_info.mem_map s)
  · apply init_congr_walk B D mem_info kernel_end
    intro s
    rw [walkMemoryMap_filter_usable, walkMemoryMap_takeWhile]
    intro e he
    have := List.mem_takeWhile_imp he
    simpa using this

/-- C17. For a map of usable (type-1) entries, overlapping or not, and any
permutation of it, the initialiser ends in the same state: the same bitmap and
counters, or the same undefined outcome when an entry reaches outside the
array. -/
theorem C17_init_ignores_order_of_usable_entries (B D : Nat) (mem_info : memory_info_t)
    (permuted : List multiboot_memory_map_t) (kernel_end : Nat)
    (hD : D * 32 < 2 ^ 32)
    (husable : ∀ e ∈ mem_info.mem_map, e.type = 1)
    (hperm : mem_info.mem_map.Perm permuted) :
    InitializePhysicalAllocator B D { mem_info with mem_map := permuted } kernel_end
      = InitializePhysicalAllocator B D mem_info kernel_end := by
  unfold InitializePhysicalAllocator
  show (match walkMemoryMap B permuted
      ⟨List.replicate D 0xFFFFFFFF, initialMaxBlocks B mem_info, initialMaxBlocks B mem_info⟩ with
    | none => none
    | some s1 => MarkMemoryRegionUsed B s1 0 kernel_end) = _
  rw [← walkMemoryMap_perm B hperm husable _ (initial_state_wellTyped B D mem_info hD)]

/-- C17 on two overlapping usable regions (blocks 16..31 and 24..39) given in
either order: both orders end with blocks 16..39 free and the counter at
`64 - 32 + 8`. -/
theorem C17_init_ignores_order_of_usable_entries_witness :
    2 * 32 < 2 ^ 32 ∧
    (∀ e ∈ [(⟨20, 0x10000, 0x10000, 1⟩ : multiboot_memory_map_t), ⟨20, 0x18000, 0x10000, 1⟩],
      e.type = 1) ∧
    InitializePhysicalAllocator 0x1000 2
      ⟨0, 256, [⟨20, 0x10000, 0x10000, 1⟩, ⟨20, 0x18000, 0x10000, 1⟩]⟩ 0x8000
      = some ⟨[0x0000FFFF, 0xFFFFFF00], 40, 64⟩ ∧
    InitializePhysicalAllocator 0x1000 2
      { (⟨0, 256, [⟨20, 0x10000, 0x10000, 1⟩, ⟨20, 0x18000, 0x10000, 1⟩]⟩ : memory_info_t) with
        mem_map := [⟨20, 0x18000, 0x10000, 1⟩, ⟨20, 0x10000, 0x10000, 1⟩] } 0x8000
      = InitializePhysicalAllocator 0x1000 2
          ⟨0, 256, [⟨20, 0x10000, 0x10000, 1⟩, ⟨20, 0x18000, 0x10000, 1⟩]⟩ 0x8000 :=
  ⟨by decide, by decide, by decide,
    C17_init_ignores_order_of_usable_entries 0x1000 2
      ⟨0, 256, [⟨20, 0x10000, 0x10000, 1⟩, ⟨20, 0x18000, 0x10000, 1⟩]⟩
      [⟨20, 0x18000, 0x10000, 1⟩, ⟨20, 0x10000, 0x10000, 1⟩] 0x8000
      (by decide) (by decide) (List.Perm.swap _ _ [])⟩

/-- C19. In a state with `maxPhysicalBlocks` within the capacity where
`usedPhysicalBlocks` equals the number of set bits of `[0, maxPhysicalBlocks)`,
the equation still holds after an `AllocatePhysicalMemoryBlock` that returns,
and after `FreePhysicalMemoryBlock(addr)` (which then returns) whenever
`addr / B` is below `maxPhysicalBlocks` and that bit is set before the call. -/
theorem C19_counter_invariant_is_preserved (B : Nat) (s : AllocatorState)
    (hB : ValidBlockSize B) (hs : s.WellTyped)
    (hmax : s.maxPhysicalBlocks ≤ s.capacity)
    (hinv : s.usedPhysicalBlocks = usedBitCount s) :
    (∀ a s1, AllocatePhysicalMemoryBlock B s = .returned a s1 →
      s1.usedPhysicalBlocks = usedBitCount s1) ∧
    (∀ addr, addr / B < s.maxPhysicalBlocks → bit_test s (addr / B) = some true →
      ∃ s1, FreePhysicalMemoryBlock B s addr = some s1 ∧
        s1.usedPhysicalBlocks = usedBitCount s1) := by
  have h32 : s.capacity < 2 ^ 32 := hs.2.2.2
  have hle := usedBitCount_le s
  constructor
  · intro a s1 h
    obtain ⟨n, sb, _, _, hn2, hfree, _, _, hset, hs1⟩ := allocate_returned_spec hB h32 h
    obtain ⟨hused, hmaxb, _, _, _⟩ := bit_set_fields hset
    have hbits := bit_test_bit_set hset
    have hcount : usedBitCount s1 = usedBitCount s + 1 := by
      apply usedBitCount_set (n := n)
      · rw [hs1]; exact hmaxb
      · omega
      · exact hfree
      · rw [hs1, bit_test_with_used, hbits n, if_pos rfl]
      · intro i hi
        rw [hs1, bit_test_with_used, hbits i, if_neg hi]
    have hu1 : s1.usedPhysicalBlocks = (s.usedPhysicalBlocks + 1) % 2 ^ 64 := by
      rw [hs1]
      show (sb.usedPhysicalBlocks + 1) % 2 ^ 64 = _
      rw [hused]
    rw [hu1, hcount, hinv]
    exact Nat.mod_eq_of_lt (by omega)
  · intro addr hidx hset
    obtain ⟨s1, h1, hbit, hother, _, _, hmax1, hused, _⟩ :=
      free_spec B s addr (by omega)
    have hcount : usedBitCount s = usedBitCount s1 + 1 :=
      usedBitCount_clear hmax1 hidx hset hbit hother
    refine ⟨s1, h1, ?_⟩
    rw [hused, hinv, hcount]
    have := usedBitCount_le s1
    omega

/-- C19 on a one-word state with three free blocks and the counter at 29:
the allocation of block 3 and the free of block 4 both keep the counter equal
to the number of set bits. -/
theorem C19_counter_invariant_is_preserved_witness :
    ValidBlockSize 0x1000 ∧ AllocatorState.WellTyped ⟨[0xFFFFFFD6], 29, 32⟩ ∧
    32 ≤ AllocatorState.capacity ⟨[0xFFFFFFD6], 29, 32⟩ ∧
    29 = usedBitCount ⟨[0xFFFFFFD6], 29, 32⟩ ∧
    AllocatePhysicalMemoryBlock 0x1000 ⟨[0xFFFFFFD6], 29, 32⟩
      = .returned 0x3000 ⟨[0xFFFFFFDE], 30, 32⟩ ∧
    FreePhysicalMemoryBlock 0x1000 ⟨[0xFFFFFFD6], 29, 32⟩ 0x4000
      = some ⟨[0xFFFFFFC6], 28, 32⟩ ∧
    ((∀ a s1, AllocatePhysicalMemoryBlock 0x1000 ⟨[0xFFFFFFD6], 29, 32⟩ = .returned a s1 →
      s1.usedPhysicalBlocks = usedBitCount s1) ∧
    (∀ addr, addr / 0x1000 < 32 → bit_test ⟨[0xFFFFFFD6], 29, 32⟩ (addr / 0x1000) = some true →
      ∃ s1, FreePhysicalMemoryBlock 0x1000 ⟨[0xFFFFFFD6], 29, 32⟩ addr = some s1 ∧
        s1.usedPhysicalBlocks = usedBitCount s1)) :=
  ⟨by decide, by decide, by decide, by decide, by decide, by decide,
    C19_counter_invariant_is_preserved 0x1000 ⟨[0xFFFFFFD6], 29, 32⟩
      (by decide) (by decide) (by decide) (by decide)⟩

end Memory
